import Mathlib

/-!
Shallow embedding of `edb/edgeql-parser/edgeql-parser-python/src/normalize.rs`,
the EdgeQL query normalizer: pre-existing argument scanning (`scan_vars`),
literal extraction into typed placeholder parameters (`push_var` and the
rewrite loop of `normalize`), statement splitting on semicolons, canonical
re-serialization (`is_operator`, `serialize_tokens`) and digest computation
(`hash`).

Two collaborators of this file live outside the embedded source file and are
therefore not re-translated here:

* the tokenizer (`edgeql_parser::tokenizer`), which turns raw text into a
  fallible token sequence — it enters the development as an explicit function
  parameter `tokenize`;
* the BLAKE2b-512 primitive (external `blake2` crate) — it enters as an
  explicit function parameter `digest`, reflecting only that the digest is a
  pure function of the canonical text.

Machine-integer detail preserved from the source: `scan_vars` parses argument
names with `str::parse::<usize>` and advances the next free index with
`usize::checked_add`, so positional indices are bounded by `usize::MAX`
(64-bit targets).  Rust `to_uppercase`/`eq_ignore_ascii_case` are modelled
with ASCII case mapping, which coincides with the source on every token text
the tokenizer can produce for keywords.
-/

namespace EdgeQLNormalize

/-- Source position, from `edgeql_parser::position::Pos`. -/
structure Pos where
  line : Nat
  column : Nat
  offset : Nat
deriving DecidableEq

/-- Source span (start and end position), from `edgeql_parser::position::Span`. -/
structure Span where
  start : Pos
  stop : Pos
deriving DecidableEq

/-- Token kinds, from `edgeql_parser::tokenizer::Kind`; the exhaustive match
in `is_operator` below lists every variant. -/
inductive Kind where
  | Assign | SubAssign | AddAssign | Arrow | Coalesce | Namespace
  | DoubleSplat | BackwardLink | FloorDiv | Concat | GreaterEq | LessEq
  | NotEq | NotDistinctFrom | DistinctFrom | Comma | OpenParen | CloseParen
  | OpenBracket | CloseBracket | OpenBrace | CloseBrace | Dot | Semicolon
  | Colon | Add | Sub | Mul | Div | Modulo | Pow | Less | Greater | Eq
  | Ampersand | Pipe | At
  | DecimalConst | FloatConst | IntConst | BigIntConst | BinStr | Argument
  | Str | BacktickName | Keyword | Ident | Substitution
deriving DecidableEq

/-- Decoded literal payloads, from `edgeql_parser::tokenizer::Value`.  Floats
keep their source spelling: no floating-point arithmetic happens in the
normalizer, values are only moved around. -/
inductive Value where
  | Int (v : Int)
  | String (s : String)
  | Float (text : String)
  | BigInt (s : String)
  | Decimal (s : String)
  | Bytes (bs : List Nat)
deriving DecidableEq

/-- A token: kind, exact source spelling, source span, optional decoded
literal value. -/
structure Token where
  kind : Kind
  text : String
  span : Span
  value : Option Value
deriving DecidableEq

/-- One extracted literal value. -/
structure Variable where
  value : Value
deriving DecidableEq

/-- The normalization result record.  The 64-byte digest is represented as a
list of bytes. -/
structure Entry where
  processed_source : String
  hash : List Nat
  tokens : List Token
  «variables» : List (List Variable)
  end_pos : Pos
  named_args : Bool
  first_arg : Option Nat
deriving DecidableEq

/-- The error taxonomy of the source: `Tokenizer` is produced on lexing
failure, `Assertion` is declared but never constructed. -/
inductive Error where
  | Tokenizer (message : String) (pos : Pos)
  | Assertion (message : String) (pos : Pos)
deriving DecidableEq

/-- Source `push_var`: append the eight-token placeholder group
`( < module :: typ > $var )` to `res`, every token carrying `span`. -/
def push_var (res : List Token) (module typ var : String) (span : Span) :
    List Token :=
  res ++ [
    { kind := .OpenParen, text := "(", span := span, value := none },
    { kind := .Less, text := "<", span := span, value := none },
    { kind := .Ident, text := module, span := span, value := none },
    { kind := .Namespace, text := "::", span := span, value := none },
    { kind := .Ident, text := typ, span := span, value := some (.String typ) },
    { kind := .Greater, text := ">", span := span, value := none },
    { kind := .Argument, text := var, span := span, value := none },
    { kind := .CloseParen, text := ")", span := span, value := none }]

/-- Rust `usize::MAX` on the 64-bit targets the Python binding is built for. -/
def USIZE_MAX : Nat := 2 ^ 64 - 1

/-- Rust `str::to_uppercase` over the characters of a string, restricted to
ASCII case mapping (full Unicode mapping differs only on non-ASCII text,
which the tokenizer never produces for the keyword and argument tokens whose
text is uppercased here). -/
def to_upper (s : String) : String :=
  ⟨s.data.map Char.toUpper⟩

/-- Rust `str::parse::<usize>`: an optional leading `+` followed by at least
one ASCII digit, rejecting values that overflow `usize`. -/
def parse_usize (s : String) : Option Nat :=
  let digits := if s.data.head? = some '+' then s.data.tail else s.data
  if digits.length = 0 then none
  else if digits.all (fun c => c.isDigit) then
    let n := digits.foldl (fun acc c => acc * 10 + (c.toNat - 48)) 0
    if n ≤ USIZE_MAX then some n else none
  else none

/-- The `max_visited` update of `scan_vars`: replace the running maximum when
the new value is strictly larger (or when there is none yet). -/
def optmax (mx : Option Nat) (v : Nat) : Option Nat :=
  match mx with
  | some old => if v > old then some v else some old
  | none => some v

/-- Rust `BTreeSet::insert` observed through emptiness and cardinality: append the
name unless it is already present. -/
def distinct_insert (seen : List String) (s : String) : List String :=
  if s ∈ seen then seen else seen ++ [s]

/-- One step of the `scan_vars` fold: on an `Argument` token, either update
the running positional maximum (when the name after `$` parses as `usize`) or
insert the full token text into the set of named references. -/
def scan_step (acc : Option Nat × List String) (t : Token) :
    Option Nat × List String :=
  if t.kind = Kind.Argument then
    match parse_usize (t.text.drop 1) with
    | some v => (optmax acc.1 v, acc.2)
    | none => (acc.1, distinct_insert acc.2 t.text)
  else acc

/-- Source `scan_vars`: classify pre-existing parameter references.  Returns
`some (named_args, next_index)` or `none` for mixed styles (and for
positional-index overflow of `checked_add`). -/
def scan_vars (tokens : List Token) : Option (Bool × Nat) :=
  let st := tokens.foldl scan_step (none, [])
  let max_visited := st.1
  let names := st.2
  if names = [] then
    match max_visited with
    | none => some (false, 0)
    | some x => if x + 1 ≤ USIZE_MAX then some (false, x + 1) else none
  else if max_visited.isSome then none
  else some (true, names.length)

/-- Source `hash` copies the BLAKE2b-512 digest of the text into the
entry; the primitive itself is the external parameter `digest`. -/
def hash (digest : String → List Nat) (text : String) : List Nat :=
  digest text

/-- Source `is_operator`: the fixed operator/punctuation classification used by the
serializer. -/
def is_operator (token : Token) : Bool :=
  match token.kind with
  | .Assign | .SubAssign | .AddAssign | .Arrow | .Coalesce | .Namespace
  | .DoubleSplat | .BackwardLink | .FloorDiv | .Concat | .GreaterEq | .LessEq
  | .NotEq | .NotDistinctFrom | .DistinctFrom | .Comma | .OpenParen
  | .CloseParen | .OpenBracket | .CloseBracket | .OpenBrace | .CloseBrace
  | .Dot | .Semicolon | .Colon | .Add | .Sub | .Mul | .Div | .Modulo | .Pow
  | .Less | .Greater | .Eq | .Ampersand | .Pipe | .At => true
  | .DecimalConst | .FloatConst | .IntConst | .BigIntConst | .BinStr
  | .Argument | .Str | .BacktickName | .Keyword | .Ident | .Substitution =>
    false

/-- One step of `serialize_tokens`: emit a space when the pending flag is set
and the token is neither operator-class nor an `Argument`, then append the
token text; the flag becomes the negation of operator-class. -/
def serialize_step (acc : String × Bool) (token : Token) : String × Bool :=
  let buf :=
    if acc.2 = true ∧ is_operator token = false ∧ token.kind ≠ Kind.Argument
    then acc.1 ++ " " else acc.1
  (buf ++ token.text, !is_operator token)

/-- Source `serialize_tokens`: canonical text reconstruction. -/
def serialize_tokens (tokens : List Token) : String :=
  (tokens.foldl serialize_step ("", false)).1

/-- Rust `str::eq_ignore_ascii_case` (token texts compared here are ASCII). -/
def eq_ignore_ascii_case (a b : String) : Bool :=
  to_upper a == to_upper b

/-- Rust `matches!(rewritten_tokens.last(), Some(Token with kind Dot))`. -/
def last_is_dot (last : Option Token) : Bool :=
  match last with
  | some t => t.kind == Kind.Dot
  | none => false

/-- The `LIMIT` lookback of the rewrite loop: the last emitted token is a
keyword equal to `LIMIT` up to ASCII case. -/
def last_is_limit (last : Option Token) : Bool :=
  match last with
  | some t => t.kind == Kind.Keyword && eq_ignore_ascii_case t.text "LIMIT"
  | none => false

/-- The guard of the `Kind::IntConst` arm: extract unless the previously
emitted token is a dot (tuple access), the literal spells the `LIMIT 1`
idiom, or it is the minimum-`i64` boundary magnitude. -/
def int_const_extracted (last : Option Token) (tok : Token) : Bool :=
  !last_is_dot last
  && (tok.text != "1" || !last_is_limit last)
  && tok.text != "9223372036854775808"

/-- The fixed administrative/DDL bypass keyword set. -/
def bypass_keywords : List String :=
  ["CONFIGURE", "CREATE", "ALTER", "DROP", "START", "ANALYZE"]

/-- The guard of the bypass `Kind::Keyword` arm: one of the fixed keywords,
or `GLOBAL` while the `last_was_set` flag is set. -/
def is_bypass_keyword (last_was_set : Bool) (tok : Token) : Bool :=
  tok.kind == Kind.Keyword &&
    (bypass_keywords.contains (to_upper tok.text) ||
     (last_was_set && to_upper tok.text == "GLOBAL"))

/-- Source next-variable naming, `$__edb_arg_` plus the index when named and
`$` plus the index when positional: the name of the
next synthesized parameter (the `next_var` closure of the source). -/
def next_var (named_args : Bool) (n : Nat) : String :=
  if named_args then "$__edb_arg_" ++ toString n else "$" ++ toString n

/-- Outcome of the rewrite loop: `panic` models the `unwrap` of a literal
token without a decoded value, `bypass` the early whole-query return on a
bypass keyword, `ok` the completed pass. -/
inductive RewriteResult where
  | panic
  | bypass
  | ok (rewritten : List Token) (all_variables : List (List Variable))
      (counter : Nat)
deriving DecidableEq

/-- The rewrite loop of `normalize` (lines 112–211 of the source): arguments
are the remaining tokens, then the accumulated `rewritten_tokens`,
`all_variables`, `variables`, `counter` and `last_was_set` state.  The
extraction arms `continue` in the source and hence leave `last_was_set`
unchanged; every other arm reassigns it.  The final
`all_variables.push(variables)` is performed at the end of the list. -/
def rewrite_loop (named_args : Bool) :
    List Token → List Token → List (List Variable) → List Variable → Nat →
    Bool → RewriteResult
  | [], rew, allv, vars, counter, _ =>
    .ok rew (allv ++ [vars]) counter
  | tok :: rest, rew, allv, vars, counter, last_was_set =>
    if tok.kind == Kind.IntConst && int_const_extracted rew.getLast? tok then
      match tok.value with
      | some v =>
        rewrite_loop named_args rest
          (push_var rew "__std__" "int64" (next_var named_args counter)
            tok.span)
          allv (vars ++ [⟨v⟩]) (counter + 1) last_was_set
      | none => .panic
    else if tok.kind == Kind.FloatConst then
      match tok.value with
      | some v =>
        rewrite_loop named_args rest
          (push_var rew "__std__" "float64" (next_var named_args counter)
            tok.span)
          allv (vars ++ [⟨v⟩]) (counter + 1) last_was_set
      | none => .panic
    else if tok.kind == Kind.BigIntConst then
      match tok.value with
      | some v =>
        rewrite_loop named_args rest
          (push_var rew "__std__" "bigint" (next_var named_args counter)
            tok.span)
          allv (vars ++ [⟨v⟩]) (counter + 1) last_was_set
      | none => .panic
    else if tok.kind == Kind.DecimalConst then
      match tok.value with
      | some v =>
        rewrite_loop named_args rest
          (push_var rew "__std__" "decimal" (next_var named_args counter)
            tok.span)
          allv (vars ++ [⟨v⟩]) (counter + 1) last_was_set
      | none => .panic
    else if tok.kind == Kind.Str then
      match tok.value with
      | some v =>
        rewrite_loop named_args rest
          (push_var rew "__std__" "str" (next_var named_args counter)
            tok.span)
          allv (vars ++ [⟨v⟩]) (counter + 1) last_was_set
      | none => .panic
    else if is_bypass_keyword last_was_set tok then
      .bypass
    else if tok.kind == Kind.Semicolon then
      if rest.length > 0 then
        rewrite_loop named_args rest (rew ++ [tok]) (allv ++ [vars]) []
          counter false
      else
        rewrite_loop named_args rest (rew ++ [tok]) allv vars counter false
    else if tok.kind == Kind.Keyword && to_upper tok.text == "SET" then
      rewrite_loop named_args rest (rew ++ [tok]) allv vars counter true
    else
      rewrite_loop named_args rest (rew ++ [tok]) allv vars counter false

/-- The pass-through `Entry` built on the scan-failure and bypass paths:
original tokens serialized verbatim, digest of that text, no variables, no
argument metadata. -/
def pass_through_entry (digest : String → List Nat) (tokens : List Token)
    (end_pos : Pos) : Entry :=
  let processed_source := serialize_tokens tokens
  { processed_source := processed_source
    hash := hash digest processed_source
    tokens := tokens
    «variables» := []
    end_pos := end_pos
    named_args := false
    first_arg := none }

/-- Source `normalize` after tokenization (lines 83–221): scan the
pre-existing arguments, run the rewrite loop, assemble the entry.  `none`
models the `unwrap` panic on a literal token without a decoded value. -/
def normalize_tokens (digest : String → List Nat) (tokens : List Token)
    (end_pos : Pos) : Option Entry :=
  match scan_vars tokens with
  | none => some (pass_through_entry digest tokens end_pos)
  | some (named_args, var_idx) =>
    match rewrite_loop named_args tokens [] [] [] var_idx false with
    | .panic => none
    | .bypass => some (pass_through_entry digest tokens end_pos)
    | .ok rewritten_tokens all_variables counter =>
      let processed_source := serialize_tokens rewritten_tokens
      some {
        processed_source := processed_source
        hash := hash digest processed_source
        tokens := rewritten_tokens
        «variables» := all_variables
        end_pos := end_pos
        named_args := named_args
        first_arg := if counter ≤ var_idx then none else some var_idx }

/-- Source `normalize`: tokenize, mapping a tokenizer failure to `Error.Tokenizer`
with the failure message and the span start, then run the main pass.
Modelled from the spec: the tokenizer itself is repository code outside this
source file, so it is passed as the explicit function parameter `tokenize`
producing the token sequence and the position after the last consumed
token. -/
def normalize (tokenize : String → Except (String × Pos) (List Token × Pos))
    (digest : String → List Nat) (text : String) :
    Option (Except Error Entry) :=
  match tokenize text with
  | .error (message, pos) => some (.error (.Tokenizer message pos))
  | .ok (tokens, end_pos) => (normalize_tokens digest tokens end_pos).map .ok

/-! ### Specification-side vocabulary

Definitions below restate notions the claims quantify over (positional and
named references, statement segments, operator kinds, …); they are compared
with the source-translated functions above by the theorems. -/

/-- The positional indices of the pre-existing parameter references: the
`Argument` tokens whose name after `$` parses as `usize`. -/
def arg_positional_indices (tokens : List Token) : List Nat :=
  tokens.filterMap (fun t =>
    if t.kind = Kind.Argument then parse_usize (t.text.drop 1) else none)

/-- The texts of the named pre-existing parameter references: the `Argument`
tokens whose name does not parse as `usize`. -/
def arg_named_texts (tokens : List Token) : List String :=
  tokens.filterMap (fun t =>
    if t.kind = Kind.Argument ∧ parse_usize (t.text.drop 1) = none
    then some t.text else none)

/-- The serializer space rule as the spec states it: one space goes between
two adjacent tokens exactly when the previous token exists and is
non-operator-class and the current one is neither operator-class nor a
parameter reference. -/
def needs_space_between (a : Option Token) (b : Token) : Bool :=
  match a with
  | none => false
  | some t => !is_operator t && !is_operator b && !(b.kind == Kind.Argument)

/-- The spec's enumeration of the operator-class token kinds. -/
def operator_kinds : List Kind :=
  [.Assign, .SubAssign, .AddAssign, .Arrow, .Coalesce, .Namespace,
   .DoubleSplat, .BackwardLink, .FloorDiv, .Concat, .GreaterEq, .LessEq,
   .NotEq, .NotDistinctFrom, .DistinctFrom, .Comma, .OpenParen, .CloseParen,
   .OpenBracket, .CloseBracket, .OpenBrace, .CloseBrace, .Dot, .Semicolon,
   .Colon, .Add, .Sub, .Mul, .Div, .Modulo, .Pow, .Less, .Greater, .Eq,
   .Ampersand, .Pipe, .At]

/-- The token-source invariant the spec demands of the tokenizer: every
literal-kind token carries a decoded value. -/
def well_valued (tokens : List Token) : Prop :=
  ∀ t ∈ tokens,
    (t.kind = Kind.IntConst ∨ t.kind = Kind.FloatConst ∨
     t.kind = Kind.BigIntConst ∨ t.kind = Kind.DecimalConst ∨
     t.kind = Kind.Str) → t.value ≠ none

/-- Some token is a keyword of the fixed administrative/DDL bypass set. -/
def has_bypass_keyword (tokens : List Token) : Prop :=
  ∃ t ∈ tokens, t.kind = Kind.Keyword ∧
    bypass_keywords.contains (to_upper t.text) = true

/-- A `SET` keyword immediately followed by a `GLOBAL` keyword occurs in the
sequence. -/
def adj_set_global : List Token → Bool
  | t :: u :: rest =>
    (t.kind == Kind.Keyword && to_upper t.text == "SET" &&
     u.kind == Kind.Keyword && to_upper u.text == "GLOBAL")
    || adj_set_global (u :: rest)
  | _ => false

/-- The first token is a `GLOBAL` keyword. -/
def head_is_global : List Token → Bool
  | t :: _ => t.kind == Kind.Keyword && to_upper t.text == "GLOBAL"
  | [] => false

/-- Semicolon tokens that are not the final token of the sequence. -/
def count_nonfinal_semis : List Token → Nat
  | [] => 0
  | [_] => 0
  | t :: u :: rest =>
    (if t.kind = Kind.Semicolon then 1 else 0)
      + count_nonfinal_semis (u :: rest)

/-- Split a token sequence into its statements at non-final semicolons (the
separators themselves are dropped; a trailing semicolon stays inside the last
statement, where it can contribute no value). -/
def stmt_split : List Token → List (List Token)
  | [] => [[]]
  | t :: rest =>
    if t.kind = Kind.Semicolon ∧ rest ≠ [] then
      [] :: stmt_split rest
    else
      match stmt_split rest with
      | [] => [[t]]
      | s :: ss => (t :: s) :: ss

/-- The closing token of a placeholder group, which is what the rewrite loop
leaves as the last emitted token after an extraction. -/
def close_paren_token (span : Span) : Token :=
  { kind := .CloseParen, text := ")", span := span, value := none }

/-- The extracted values of a single statement, computed independently of the
rest of the query: `last` is the previously emitted token (`none` at the very
start; at a statement boundary the semicolon, which is equivalent). -/
def seg_values : Option Token → List Token → List Variable
  | _, [] => []
  | last, t :: rest =>
    if t.kind = Kind.IntConst ∧ int_const_extracted last t = true then
      match t.value with
      | some v => ⟨v⟩ :: seg_values (some (close_paren_token t.span)) rest
      | none => seg_values (some (close_paren_token t.span)) rest
    else if t.kind = Kind.FloatConst ∨ t.kind = Kind.BigIntConst ∨
        t.kind = Kind.DecimalConst ∨ t.kind = Kind.Str then
      match t.value with
      | some v => ⟨v⟩ :: seg_values (some (close_paren_token t.span)) rest
      | none => seg_values (some (close_paren_token t.span)) rest
    else
      seg_values (some t) rest

/-- Per-statement extracted values of a whole sequence: the first statement
continues the in-progress list `vars` with previous emitted token `last`,
later statements start fresh after their semicolon. -/
def seg_values_all (last : Option Token) (vars : List Variable)
    (toks : List Token) : List (List Variable) :=
  match stmt_split toks with
  | [] => [vars]
  | s :: ss => (vars ++ seg_values last s) :: ss.map (seg_values none)

/-- Number of `Argument`-kind tokens of a sequence. -/
def count_args (tokens : List Token) : Nat :=
  tokens.countP (fun t => t.kind == Kind.Argument)

/-- The spec's fixed literal-kind-to-type mapping: integer to `int64`, float
to `float64`, arbitrary-precision integer to `bigint`, arbitrary-precision
decimal to `decimal`, string to `str` (other kinds are never extracted). -/
def extract_type : Kind → String
  | .IntConst => "int64"
  | .FloatConst => "float64"
  | .BigIntConst => "bigint"
  | .DecimalConst => "decimal"
  | .Str => "str"
  | _ => ""

/-! ### Concrete instances used by witnesses and counterexamples -/

/-- A concrete position. -/
def mkpos (o : Nat) : Pos := ⟨1, o + 1, o⟩

/-- The origin position. -/
def pos0 : Pos := mkpos 0

/-- A concrete one-line span. -/
def mkspan (a b : Nat) : Span := ⟨mkpos a, mkpos b⟩

/-- A concrete digest function for witnesses (the theorems about the digest
quantify over it). -/
def digest0 : String → List Nat := fun s => [s.length]

/-- A concrete tokenizer returning no tokens, for witnesses. -/
def tokenize_empty : String → Except (String × Pos) (List Token × Pos) :=
  fun _ => .ok ([], pos0)

/-- A concrete failing tokenizer, for witnesses. -/
def tokenize_fail : String → Except (String × Pos) (List Token × Pos) :=
  fun _ => .error ("unexpected character", pos0)

/-- Keyword token builder. -/
def kw_token (t : String) (a b : Nat) : Token :=
  { kind := .Keyword, text := t, span := mkspan a b, value := none }

/-- Integer-literal token builder. -/
def int_token (t : String) (v : Int) (a b : Nat) : Token :=
  { kind := .IntConst, text := t, span := mkspan a b, value := some (.Int v) }

/-- Identifier token builder. -/
def ident_token (t : String) (a b : Nat) : Token :=
  { kind := .Ident, text := t, span := mkspan a b, value := none }

/-- Operator/punctuation token builder. -/
def op_token (k : Kind) (t : String) (a b : Nat) : Token :=
  { kind := k, text := t, span := mkspan a b, value := none }

/-- Argument-reference token builder. -/
def arg_token (t : String) (a b : Nat) : Token :=
  { kind := .Argument, text := t, span := mkspan a b, value := none }

/-- Modelled from the spec: the token sequence the external tokenizer
produces for the text `SELECT 1+1` — a `SELECT` keyword, the integer literal
`1` with decoded value `1`, the `+` operator, and the integer literal `1`
with decoded value `1`, with their source spans. -/
def sel11_tokens : List Token :=
  [kw_token "SELECT" 0 6, int_token "1" 1 7 8, op_token .Add "+" 8 9,
   int_token "1" 1 9 10]

/-- The position after the last token of `SELECT 1+1`. -/
def sel11_end : Pos := mkpos 10

/-- The token sequence of `SET 2 GLOBAL`: an extracted integer literal stands
between `SET` and `GLOBAL`. -/
def set_int_global_tokens : List Token :=
  [kw_token "SET" 0 3, int_token "2" 2 4 5, kw_token "GLOBAL" 6 12]

/-- The token sequence of `CREATE Foo`. -/
def create_tokens : List Token :=
  [kw_token "CREATE" 0 6, ident_token "Foo" 7 10]

/-- The token sequence of `SELECT 1;SELECT 2;` (two statements, trailing
semicolon). -/
def two_stmt_tokens : List Token :=
  [kw_token "SELECT" 0 6, int_token "1" 1 7 8, op_token .Semicolon ";" 8 9,
   kw_token "SELECT" 10 16, int_token "2" 2 17 18,
   op_token .Semicolon ";" 18 19]

/-- An `Argument` token carrying the largest positional index `usize` can
hold. -/
def max_arg_token : Token := arg_token "$18446744073709551615" 0 21

/-- Rewritten-output prefix `SELECT foo LIMIT`, as previously emitted tokens
for the `LIMIT` special case. -/
def limit_context_tokens : List Token :=
  [kw_token "SELECT" 0 6, ident_token "foo" 7 10, kw_token "LIMIT" 11 16]

/-- The rewritten token sequence for `SELECT 1+1`: each literal replaced by
its eight-token placeholder group carrying the literal's span. -/
def sel11_rewritten : List Token :=
  [kw_token "SELECT" 0 6]
    ++ [{ kind := .OpenParen, text := "(", span := mkspan 7 8, value := none },
        { kind := .Less, text := "<", span := mkspan 7 8, value := none },
        { kind := .Ident, text := "__std__", span := mkspan 7 8, value := none },
        { kind := .Namespace, text := "::", span := mkspan 7 8, value := none },
        { kind := .Ident, text := "int64", span := mkspan 7 8,
          value := some (.String "int64") },
        { kind := .Greater, text := ">", span := mkspan 7 8, value := none },
        { kind := .Argument, text := "$0", span := mkspan 7 8, value := none },
        { kind := .CloseParen, text := ")", span := mkspan 7 8, value := none }]
    ++ [op_token .Add "+" 8 9]
    ++ [{ kind := .OpenParen, text := "(", span := mkspan 9 10, value := none },
        { kind := .Less, text := "<", span := mkspan 9 10, value := none },
        { kind := .Ident, text := "__std__", span := mkspan 9 10, value := none },
        { kind := .Namespace, text := "::", span := mkspan 9 10, value := none },
        { kind := .Ident, text := "int64", span := mkspan 9 10,
          value := some (.String "int64") },
        { kind := .Greater, text := ">", span := mkspan 9 10, value := none },
        { kind := .Argument, text := "$1", span := mkspan 9 10, value := none },
        { kind := .CloseParen, text := ")", span := mkspan 9 10, value := none }]

/-- The token sequence of `x;y`: two trivial statements. -/
def ident_semi_tokens : List Token :=
  [ident_token "x" 0 1, op_token .Semicolon ";" 1 2, ident_token "y" 3 4]

/-- The entry `normalize` produces for an empty token sequence under
`digest0`. -/
def entry_empty : Entry :=
  { processed_source := ""
    hash := [0]
    tokens := []
    «variables» := [[]]
    end_pos := pos0
    named_args := false
    first_arg := none }

/-! ### Theorems -/

/-- The hash field of every entry `normalize_tokens` returns is the digest of
its `processed_source`. -/
lemma normalize_tokens_hash_eq (digest : String → List Nat)
    (toks : List Token) (p : Pos) (e : Entry)
    (h : normalize_tokens digest toks p = some e) :
    e.hash = digest e.processed_source := by
  unfold normalize_tokens at h
  cases hs : scan_vars toks with
  | none =>
    simp only [hs] at h
    cases h
    rfl
  | some pair =>
    obtain ⟨na, vi⟩ := pair
    simp only [hs] at h
    cases hl : rewrite_loop na toks [] [] [] vi false with
    | panic => simp only [hl] at h; exact Option.noConfusion h
    | bypass => simp only [hl] at h; cases h; rfl
    | ok rew allv ctr =>
      simp only [hl, Option.some.injEq] at h
      cases h
      rfl

/-- C1: for every input text `t` two calls to `normalize t` return identical
results (hash, processed_source and variables included), and the digest is a
pure function of `processed_source`: any two entries produced by the
normalizer whose canonical texts coincide carry the same hash. -/
theorem normalize_deterministic_and_hash_pure
    (digest : String → List Nat)
    (tokenize : String → Except (String × Pos) (List Token × Pos))
    (t : String) (toks1 toks2 : List Token) (p1 p2 : Pos) (e1 e2 : Entry)
    (h1 : normalize_tokens digest toks1 p1 = some e1)
    (h2 : normalize_tokens digest toks2 p2 = some e2)
    (hsrc : e1.processed_source = e2.processed_source) :
    normalize tokenize digest t = normalize tokenize digest t ∧
      e1.hash = e2.hash := by
  refine ⟨rfl, ?_⟩
  rw [normalize_tokens_hash_eq digest toks1 p1 e1 h1,
    normalize_tokens_hash_eq digest toks2 p2 e2 h2, hsrc]

/-- Witness for C1 at the empty token sequence. -/
theorem normalize_deterministic_and_hash_pure_witness :
    normalize tokenize_empty digest0 "SELECT 1+1"
        = normalize tokenize_empty digest0 "SELECT 1+1" ∧
      entry_empty.hash = entry_empty.hash :=
  normalize_deterministic_and_hash_pure digest0 tokenize_empty "SELECT 1+1"
    [] [] pos0 pos0 entry_empty entry_empty (by rfl) (by rfl) rfl

/-- C2 counterexample: on the tokens of `SELECT 1+1` the serializer emits no
space before `(` (an operator-class token), so `processed_source` is
`SELECT(<__std__::int64>$0)+(<__std__::int64>$1)`, not the spaced string the
claim states. -/
theorem sel11_processed_source_counterexample :
    (normalize_tokens digest0 sel11_tokens sel11_end).map
        Entry.processed_source
      = some "SELECT(<__std__::int64>$0)+(<__std__::int64>$1)"
    ∧ (normalize_tokens digest0 sel11_tokens sel11_end).map
        Entry.processed_source
      ≠ some "SELECT (<__std__::int64>$0)+(<__std__::int64>$1)" := by
  exact ⟨rfl, by decide⟩

/-- C2 amended: `normalize` on `SELECT 1+1` returns Ok with
`processed_source` exactly `SELECT(<__std__::int64>$0)+(<__std__::int64>$1)`
(no space before the parenthesis), two variables with decoded integer values
1 and 1, `named_args = false` and `first_arg = some 0`. -/
theorem sel11_normalized (digest : String → List Nat) :
    normalize_tokens digest sel11_tokens sel11_end = some {
      processed_source := "SELECT(<__std__::int64>$0)+(<__std__::int64>$1)"
      hash := digest "SELECT(<__std__::int64>$0)+(<__std__::int64>$1)"
      tokens := sel11_rewritten
      «variables» := [[⟨.Int 1⟩, ⟨.Int 1⟩]]
      end_pos := sel11_end
      named_args := false
      first_arg := some 0 } := by
  rfl

/-- C3 counterexample: a single positional reference with the maximum index
`usize::MAX` makes `checked_add` overflow, so the scanner returns the failure
signal instead of `(false, max + 1)`. -/
theorem scan_vars_usize_overflow_counterexample :
    arg_positional_indices [max_arg_token] = [18446744073709551615]
    ∧ arg_named_texts [max_arg_token] = []
    ∧ scan_vars [max_arg_token] = none
    ∧ scan_vars [max_arg_token] ≠ some (false, 18446744073709551616) := by
  refine ⟨rfl, rfl, rfl, by decide⟩

/-- The boolean state of the serializer fold after a token list: false
initially, afterwards the negated operator-class of the last token. -/
lemma serialize_snd (xs : List Token) (buf : String) (ns : Bool) :
    (List.foldl serialize_step (buf, ns) xs).2 =
      match xs.getLast? with
      | none => ns
      | some a => !is_operator a := by
  induction xs using List.reverseRecOn with
  | nil => rfl
  | append_singleton ys a ih =>
    rw [List.foldl_append, List.getLast?_concat]
    rfl

/-- Appending one token to the serializer input appends (optional space plus)
its text, the space governed by the spec's adjacency rule. -/
lemma serialize_tokens_concat (xs : List Token) (b : Token) :
    serialize_tokens (xs ++ [b]) =
      serialize_tokens xs
        ++ (if needs_space_between xs.getLast? b then " " else "")
        ++ b.text := by
  have hsnd := serialize_snd xs "" false
  unfold serialize_tokens
  rw [List.foldl_append]
  cases hq : List.foldl serialize_step ("", false) xs with
  | mk s1 s2 =>
    rw [hq] at hsnd
    dsimp only at hsnd
    cases hl : xs.getLast? with
    | none =>
      rw [hl] at hsnd
      subst hsnd
      simp [serialize_step, needs_space_between]
    | some a =>
      rw [hl] at hsnd
      subst hsnd
      cases ha : is_operator a <;> cases hb : is_operator b <;>
        cases hba : b.kind == Kind.Argument <;>
          simp_all [serialize_step, needs_space_between, beq_iff_eq]

/-- C9: the serializer emits exactly one space before a token iff the
previous token is non-operator-class and the current one is neither
operator-class nor an `Argument` reference; otherwise texts are concatenated
directly.  Operator-class is exactly the spec's fixed kind set. -/
theorem serialize_space_rule (xs : List Token) (b : Token) (t : Token) :
    serialize_tokens (xs ++ [b]) =
      serialize_tokens xs
        ++ (if needs_space_between xs.getLast? b then " " else "")
        ++ b.text
    ∧ (is_operator t = true ↔ t.kind ∈ operator_kinds) := by
  refine ⟨serialize_tokens_concat xs b, ?_⟩
  obtain ⟨k, tx, sp, v⟩ := t
  cases k <;> simp [is_operator, operator_kinds]

/-- The `scan_vars` fold computes the `optmax`-fold of the positional indices
and the `distinct_insert`-fold of the named reference texts. -/
lemma scan_fold_eq (toks : List Token) :
    ∀ (mx : Option Nat) (seen : List String),
      toks.foldl scan_step (mx, seen) =
        ((arg_positional_indices toks).foldl optmax mx,
         (arg_named_texts toks).foldl distinct_insert seen) := by
  induction toks with
  | nil =>
    intro mx seen
    simp [arg_positional_indices, arg_named_texts]
  | cons t rest ih =>
    intro mx seen
    by_cases hk : t.kind = Kind.Argument
    · cases hp : parse_usize (t.text.drop 1) with
      | some v =>
        simp [arg_positional_indices, arg_named_texts, List.filterMap_cons,
          hk, hp, scan_step, ih]
      | none =>
        simp [arg_positional_indices, arg_named_texts, List.filterMap_cons,
          hk, hp, scan_step, ih]
    · simp [arg_positional_indices, arg_named_texts, List.filterMap_cons,
        hk, scan_step, ih]

/-- Folding `optmax` over a present maximum is `Nat.max`. -/
lemma optmax_some (v a : Nat) : optmax (some v) a = some (max v a) := by
  show (if a > v then some a else some v) = some (max v a)
  rcases Nat.lt_or_ge v a with h | h
  · rw [if_pos h, Nat.max_eq_right (Nat.le_of_lt h)]
  · rw [if_neg (Nat.not_lt.mpr h), Nat.max_eq_left h]

/-- Folding `optmax` from a present start value folds `Nat.max`. -/
lemma optmax_some_foldl (l : List Nat) :
    ∀ v : Nat, l.foldl optmax (some v) = some (l.foldl max v) := by
  induction l with
  | nil => intro v; rfl
  | cons a l ih =>
    intro v
    simp only [List.foldl_cons, optmax_some]
    exact ih (max v a)

lemma foldl_max_le (l : List Nat) :
    ∀ a m : Nat, a ≤ m → (∀ i ∈ l, i ≤ m) → l.foldl max a ≤ m := by
  induction l with
  | nil => intro a m ha _; exact ha
  | cons i l ih =>
    intro a m ha hall
    simp only [List.foldl_cons]
    exact ih _ m (max_le ha (hall i (List.mem_cons_self i l)))
      fun j hj => hall j (List.mem_cons_of_mem i hj)

lemma le_foldl_max (l : List Nat) : ∀ a : Nat, a ≤ l.foldl max a := by
  induction l with
  | nil => intro a; exact Nat.le_refl a
  | cons i l ih =>
    intro a
    simp only [List.foldl_cons]
    exact Nat.le_trans (Nat.le_max_left a i) (ih (max a i))

lemma mem_le_foldl_max (l : List Nat) :
    ∀ a m : Nat, m ∈ l → m ≤ l.foldl max a := by
  induction l with
  | nil => intro a m hm; cases hm
  | cons i l ih =>
    intro a m hm
    simp only [List.foldl_cons]
    rcases List.mem_cons.mp hm with h | h
    · subst h
      exact Nat.le_trans (Nat.le_max_right a m) (le_foldl_max l (max a m))
    · exact ih (max a i) m h

/-- The `Nat.max`-fold evaluates to the maximum element. -/
lemma foldl_max_eq (l : List Nat) (a m : Nat) (ha : a ≤ m)
    (hall : ∀ i ∈ l, i ≤ m) (hm : m = a ∨ m ∈ l) : l.foldl max a = m := by
  refine Nat.le_antisymm (foldl_max_le l a m ha hall) ?_
  rcases hm with h | h
  · subst h; exact le_foldl_max l m
  · exact mem_le_foldl_max l a m h

/-- The `distinct_insert` fold accumulates exactly the set of names. -/
lemma distinct_foldl_toFinset (l : List String) :
    ∀ seen : List String,
      (l.foldl distinct_insert seen).toFinset = seen.toFinset ∪ l.toFinset := by
  induction l with
  | nil => intro seen; simp
  | cons a l ih =>
    intro seen
    simp only [List.foldl_cons]
    rw [ih]
    have h : (distinct_insert seen a).toFinset = insert a seen.toFinset := by
      unfold distinct_insert
      split
      · rename_i hmem
        rw [Finset.insert_eq_self.mpr (List.mem_toFinset.mpr hmem)]
      · rw [List.toFinset_append]
        ext x
        simp [or_comm]
    rw [h]
    ext x
    simp
    try tauto

/-- The `distinct_insert` fold keeps the accumulator duplicate-free. -/
lemma distinct_foldl_nodup (l : List String) :
    ∀ seen : List String, seen.Nodup → (l.foldl distinct_insert seen).Nodup := by
  induction l with
  | nil => intro seen h; exact h
  | cons a l ih =>
    intro seen h
    apply ih
    unfold distinct_insert
    split
    · exact h
    · rename_i hna
      simp [List.nodup_append, h, hna]

/-- The length of the `distinct_insert` fold from the empty accumulator is
the number of distinct names. -/
lemma distinct_count (l : List String) :
    (l.foldl distinct_insert []).length = l.toFinset.card := by
  have h2 := distinct_foldl_nodup l [] (by simp)
  rw [← List.toFinset_card_of_nodup h2, distinct_foldl_toFinset l []]
  simp

/-- The `distinct_insert` fold is empty only for an empty name list. -/
lemma distinct_foldl_eq_nil (l : List String) :
    l.foldl distinct_insert [] = [] ↔ l = [] := by
  constructor
  · intro h
    have hf := distinct_foldl_toFinset l []
    rw [h] at hf
    cases l with
    | nil => rfl
    | cons a l =>
      exfalso
      have : a ∈ (List.nil (α := String)).toFinset := by
        rw [hf]
        simp
      simp at this
  · intro h
    subst h
    rfl

/-- C3 amended: the scanner returns `(false, 0)` with no references and
`(false, m+1)` for all-positional references of maximum `m`, provided `m + 1`
does not overflow `usize` (at `m = usize::MAX` it returns the failure signal
instead); for all-named references it returns `(true, n)` with `n` the number
of distinct names; mixing both styles returns the failure signal. -/
theorem scan_vars_classification (tokens : List Token) (m : Nat) :
    (arg_positional_indices tokens = [] ∧ arg_named_texts tokens = [] →
        scan_vars tokens = some (false, 0))
    ∧ (arg_named_texts tokens = [] → m ∈ arg_positional_indices tokens →
        (∀ i ∈ arg_positional_indices tokens, i ≤ m) →
          scan_vars tokens =
            if m + 1 ≤ USIZE_MAX then some (false, m + 1) else none)
    ∧ (arg_positional_indices tokens = [] → arg_named_texts tokens ≠ [] →
        scan_vars tokens = some (true, (arg_named_texts tokens).toFinset.card))
    ∧ (arg_positional_indices tokens ≠ [] → arg_named_texts tokens ≠ [] →
        scan_vars tokens = none) := by
  refine ⟨?_, ?_, ?_, ?_⟩
  · rintro ⟨h1, h2⟩
    simp [scan_vars, scan_fold_eq tokens none [], h1, h2]
  · intro hn hm hall
    cases hL : arg_positional_indices tokens with
    | nil => rw [hL] at hm; cases hm
    | cons a l =>
      have hfold : (arg_positional_indices tokens).foldl optmax none = some m := by
        rw [hL]
        simp only [List.foldl_cons]
        show List.foldl optmax (optmax none a) l = some m
        rw [show optmax none a = some a from rfl, optmax_some_foldl]
        rw [hL] at hm hall
        refine congrArg some (foldl_max_eq l a m
          (hall a (List.mem_cons_self a l))
          (fun i hi => hall i (List.mem_cons_of_mem a hi)) ?_)
        exact List.mem_cons.mp hm
      simp [scan_vars, scan_fold_eq tokens none [], hn, hfold]
  · intro hp hn
    have hne : (arg_named_texts tokens).foldl distinct_insert [] ≠ [] := by
      intro h
      exact hn ((distinct_foldl_eq_nil _).mp h)
    simp [scan_vars, scan_fold_eq tokens none [], hp, hne, distinct_count]
  · intro hp hn
    have hne : (arg_named_texts tokens).foldl distinct_insert [] ≠ [] := by
      intro h
      exact hn ((distinct_foldl_eq_nil _).mp h)
    cases hL : arg_positional_indices tokens with
    | nil => exact absurd hL hp
    | cons a l =>
      have hfold : ∃ w, (arg_positional_indices tokens).foldl optmax none = some w := by
        rw [hL]
        simp only [List.foldl_cons]
        show ∃ w, List.foldl optmax (optmax none a) l = some w
        rw [show optmax none a = some a from rfl, optmax_some_foldl]
        exact ⟨_, rfl⟩
      obtain ⟨w, hw⟩ := hfold
      simp [scan_vars, scan_fold_eq tokens none [], hne, hw]

/-- Witness for C3 at concrete positional, named and mixed inputs. -/
theorem scan_vars_classification_witness :
    scan_vars [arg_token "$2" 0 2, arg_token "$3" 3 5, arg_token "$2" 6 8]
      = some (false, 4) := by
  have h := (scan_vars_classification
    [arg_token "$2" 0 2, arg_token "$3" 3 5, arg_token "$2" 6 8] 3).2.1
    (by decide) (by decide) (by decide)
  rw [h]
  decide

/-- C5: an integer literal is extracted into an `int64` parameter except in
exactly three cases — previous emitted token a dot, the `LIMIT 1` idiom, or
the minimum-`i64` boundary text — in which it is passed through (which also
clears the `SET` lookback flag). -/
theorem int_const_exclusions (na : Bool) (tok : Token) (rest rew : List Token)
    (allv : List (List Variable)) (vars : List Variable) (c : Nat)
    (lws : Bool) (v : Value) (hk : tok.kind = Kind.IntConst)
    (hv : tok.value = some v) :
    (int_const_extracted rew.getLast? tok = true →
      rewrite_loop na (tok :: rest) rew allv vars c lws =
        rewrite_loop na rest
          (push_var rew "__std__" "int64" (next_var na c) tok.span)
          allv (vars ++ [⟨v⟩]) (c + 1) lws)
    ∧ (int_const_extracted rew.getLast? tok = false →
      rewrite_loop na (tok :: rest) rew allv vars c lws =
        rewrite_loop na rest (rew ++ [tok]) allv vars c false)
    ∧ (int_const_extracted rew.getLast? tok = false ↔
        (last_is_dot rew.getLast? = true
         ∨ (tok.text = "1" ∧ last_is_limit rew.getLast? = true)
         ∨ tok.text = "9223372036854775808")) := by
  refine ⟨?_, ?_, ?_⟩
  · intro hg
    simp [rewrite_loop, hk, hg, hv]
  · intro hg
    simp [rewrite_loop, hk, hg, is_bypass_keyword]
  · by_cases h1 : tok.text = "1" <;>
      by_cases h2 : tok.text = "9223372036854775808" <;>
      cases hd : last_is_dot rew.getLast? <;>
      cases hlm : last_is_limit rew.getLast? <;>
      simp_all [int_const_extracted]

/-- Witness for C5: after `SELECT foo LIMIT` the literal `2` is extracted. -/
theorem int_const_exclusions_witness :
    rewrite_loop false [int_token "2" 2 17 18] limit_context_tokens [] [] 0
        false =
      rewrite_loop false []
        (push_var limit_context_tokens "__std__" "int64" (next_var false 0)
          (mkspan 17 18))
        [] [⟨Value.Int 2⟩] 1 false :=
  (int_const_exclusions false (int_token "2" 2 17 18) [] limit_context_tokens
    [] [] 0 false (Value.Int 2) rfl rfl).1 (by decide)

/-- C8 counterexample: in `SET 2 GLOBAL` the extracted literal `2` stands
between `SET` and `GLOBAL`, yet the whole query is bypassed (extraction arms
skip the lookback-flag reset), contradicting the claim that only an
immediately following `GLOBAL` triggers the bypass. -/
theorem set_global_lookback_counterexample :
    normalize_tokens digest0 set_int_global_tokens (mkpos 12)
      = some (pass_through_entry digest0 set_int_global_tokens (mkpos 12))
    ∧ (pass_through_entry digest0 set_int_global_tokens
        (mkpos 12)).«variables» = []
    ∧ (pass_through_entry digest0 set_int_global_tokens
        (mkpos 12)).first_arg = none
    ∧ set_int_global_tokens[1]? = some (int_token "2" 2 4 5)
    ∧ (int_token "2" 2 4 5).kind ≠ Kind.Keyword := by
  refine ⟨rfl, rfl, rfl, rfl, by decide⟩

/-- C8 amended: `GLOBAL` triggers the bypass exactly when the lookback flag
is set when it is reached; the flag is set by a `SET` keyword, left unchanged
by every extracted literal (integer, float, bigint, decimal or string — so
`SET <extracted literal> GLOBAL` also bypasses), and cleared by every other
retained token (non-extracted literals, semicolons, operators, identifiers
and non-`SET` keywords alike). -/
theorem set_global_lookback_amended (na : Bool) (tok : Token)
    (rest rew : List Token) (allv : List (List Variable))
    (vars : List Variable) (c : Nat)
    (hk : tok.kind = Kind.Keyword) (hg : to_upper tok.text = "GLOBAL") :
    (rewrite_loop na (tok :: rest) rew allv vars c true = .bypass)
    ∧ (rewrite_loop na (tok :: rest) rew allv vars c false =
        rewrite_loop na rest (rew ++ [tok]) allv vars c false)
    ∧ (∀ t : Token, ∀ v : Value, ∀ lws : Bool, t.value = some v →
        ((t.kind = Kind.IntConst
            ∧ int_const_extracted rew.getLast? t = true)
          ∨ t.kind = Kind.FloatConst ∨ t.kind = Kind.BigIntConst
          ∨ t.kind = Kind.DecimalConst ∨ t.kind = Kind.Str) →
        rewrite_loop na (t :: rest) rew allv vars c lws =
          rewrite_loop na rest
            (push_var rew "__std__" (extract_type t.kind) (next_var na c)
              t.span)
            allv (vars ++ [⟨v⟩]) (c + 1) lws)
    ∧ (∀ t : Token, ∀ lws : Bool, t.kind = Kind.Keyword →
        to_upper t.text = "SET" →
        rewrite_loop na (t :: rest) rew allv vars c lws =
          rewrite_loop na rest (rew ++ [t]) allv vars c true)
    ∧ (∀ t : Token, ∀ lws : Bool,
        ¬(t.kind = Kind.IntConst
          ∧ int_const_extracted rew.getLast? t = true) →
        ¬(t.kind = Kind.FloatConst ∨ t.kind = Kind.BigIntConst
          ∨ t.kind = Kind.DecimalConst ∨ t.kind = Kind.Str) →
        is_bypass_keyword lws t = false →
        ¬(t.kind = Kind.Keyword ∧ to_upper t.text = "SET") →
        rewrite_loop na (t :: rest) rew allv vars c lws =
          if rest.length > 0 ∧ t.kind = Kind.Semicolon then
            rewrite_loop na rest (rew ++ [t]) (allv ++ [vars]) [] c false
          else
            rewrite_loop na rest (rew ++ [t]) allv vars c false) := by
  refine ⟨?_, ?_, ?_, ?_, ?_⟩
  · simp [rewrite_loop, hk, hg, is_bypass_keyword]
  · simp [rewrite_loop, hk, hg, is_bypass_keyword, bypass_keywords]
  · intro t v lws hval hkind
    rcases hkind with ⟨h1, h2⟩ | h1 | h1 | h1 | h1
    · simp [rewrite_loop, h1, h2, hval, extract_type]
    · simp [rewrite_loop, h1, hval, extract_type]
    · simp [rewrite_loop, h1, hval, extract_type]
    · simp [rewrite_loop, h1, hval, extract_type]
    · simp [rewrite_loop, h1, hval, extract_type]
  · intro t lws ht hset
    simp [rewrite_loop, ht, hset, is_bypass_keyword, bypass_keywords]
  · intro t lws hni hnl hbp hnset
    have g1 : (t.kind == Kind.IntConst
        && int_const_extracted rew.getLast? t) = false := by
      by_cases h : t.kind = Kind.IntConst
      · have hx : int_const_extracted rew.getLast? t = false := by
          cases hy : int_const_extracted rew.getLast? t
          · rfl
          · exact absurd ⟨h, hy⟩ hni
        simp [hx]
      · simp [h]
    have g2 : (t.kind == Kind.FloatConst) = false := by
      cases hy : t.kind == Kind.FloatConst
      · rfl
      · exact absurd (Or.inl (beq_iff_eq.mp hy)) hnl
    have g3 : (t.kind == Kind.BigIntConst) = false := by
      cases hy : t.kind == Kind.BigIntConst
      · rfl
      · exact absurd (Or.inr (Or.inl (beq_iff_eq.mp hy))) hnl
    have g4 : (t.kind == Kind.DecimalConst) = false := by
      cases hy : t.kind == Kind.DecimalConst
      · rfl
      · exact absurd (Or.inr (Or.inr (Or.inl (beq_iff_eq.mp hy)))) hnl
    have g5 : (t.kind == Kind.Str) = false := by
      cases hy : t.kind == Kind.Str
      · rfl
      · exact absurd (Or.inr (Or.inr (Or.inr (beq_iff_eq.mp hy)))) hnl
    have g8 : (t.kind == Kind.Keyword && to_upper t.text == "SET")
        = false := by
      cases hy : t.kind == Kind.Keyword && to_upper t.text == "SET"
      · rfl
      · obtain ⟨ha, hb⟩ := (Bool.and_eq_true _ _).mp hy
        exact absurd ⟨beq_iff_eq.mp ha, beq_iff_eq.mp hb⟩ hnset
    by_cases g7 : (t.kind == Kind.Semicolon) = true
    · by_cases hlen : rest.length > 0
      · rw [if_pos ⟨hlen, beq_iff_eq.mp g7⟩]
        simp [rewrite_loop, g1, g2, g3, g4, g5, hbp, g7, hlen]
      · rw [if_neg (fun hp => hlen hp.1)]
        simp [rewrite_loop, g1, g2, g3, g4, g5, hbp, g7, hlen]
    · rw [if_neg (fun hp => g7 (by simp [hp.2]))]
      simp [rewrite_loop, g1, g2, g3, g4, g5, hbp, g7, g8]

/-- Witness for C8: an immediately preceding `SET` makes `GLOBAL` bypass. -/
theorem set_global_lookback_amended_witness :
    rewrite_loop false [kw_token "GLOBAL" 6 12] [] [] [] 0 true
      = RewriteResult.bypass :=
  (set_global_lookback_amended false (kw_token "GLOBAL" 6 12) [] [] [] [] 0
    rfl (by decide)).1

/-- A bypass keyword among `t :: rest` that `t` itself cannot account for
lies in `rest`. -/
lemma has_bypass_keyword_tail {t : Token} {rest : List Token}
    (h : has_bypass_keyword (t :: rest))
    (hnt : ¬(t.kind = Kind.Keyword ∧
      bypass_keywords.contains (to_upper t.text) = true)) :
    has_bypass_keyword rest := by
  obtain ⟨u, hu, hk, hc⟩ := h
  rcases List.mem_cons.mp hu with h | h
  · exact absurd ⟨h ▸ hk, h ▸ hc⟩ hnt
  · exact ⟨u, h, hk, hc⟩

/-- An adjacent `SET GLOBAL` pair in `t :: rest` either starts at `t` or lies
in `rest`. -/
lemma adj_set_global_cases {t : Token} {rest : List Token}
    (h : adj_set_global (t :: rest) = true) :
    (∃ u rest', rest = u :: rest' ∧ t.kind = Kind.Keyword ∧
      to_upper t.text = "SET" ∧ u.kind = Kind.Keyword ∧
      to_upper u.text = "GLOBAL")
    ∨ adj_set_global rest = true := by
  cases rest with
  | nil => simp [adj_set_global] at h
  | cons u rest' =>
    simp only [adj_set_global, Bool.or_eq_true, Bool.and_eq_true,
      beq_iff_eq] at h
    rcases h with ⟨⟨⟨h1, h2⟩, h3⟩, h4⟩ | h
    · exact Or.inl ⟨u, rest', rfl, h1, h2, h3, h4⟩
    · exact Or.inr h

/-- The tail of a well-valued token list is well-valued. -/
lemma well_valued_tail {t : Token} {rest : List Token}
    (h : well_valued (t :: rest)) : well_valued rest :=
  fun u hu => h u (List.mem_cons_of_mem t hu)


/-- A non-keyword head transfers the bypass-trigger hypothesis to the tail. -/
lemma bypass_hyp_tail_of_not_keyword {t : Token} {rest : List Token}
    {lws : Bool} (hnk : t.kind ≠ Kind.Keyword)
    (hby : has_bypass_keyword (t :: rest) ∨ adj_set_global (t :: rest) = true
      ∨ (lws = true ∧ head_is_global (t :: rest) = true)) :
    has_bypass_keyword rest ∨ adj_set_global rest = true := by
  rcases hby with hB | hA | ⟨hl, hg⟩
  · exact Or.inl (has_bypass_keyword_tail hB fun h => hnk h.1)
  · rcases adj_set_global_cases hA with ⟨u, rest', _, hk, _⟩ | h
    · exact absurd hk hnk
    · exact Or.inr h
  · simp only [head_is_global, Bool.and_eq_true, beq_iff_eq] at hg
    exact absurd hg.1 hnk

/-- On a well-valued suffix holding a bypass keyword (or an adjacent
`SET GLOBAL` pair, or starting with `GLOBAL` while the lookback flag is set),
the rewrite loop returns `bypass`. -/
lemma rewrite_loop_bypass (na : Bool) :
    ∀ (toks rew : List Token) (allv : List (List Variable))
      (vars : List Variable) (c : Nat) (lws : Bool),
      well_valued toks →
      (has_bypass_keyword toks ∨ adj_set_global toks = true ∨
        (lws = true ∧ head_is_global toks = true)) →
      rewrite_loop na toks rew allv vars c lws = .bypass := by
  intro toks
  induction toks with
  | nil =>
    intro rew allv vars c lws _ hby
    rcases hby with ⟨u, hu, _⟩ | h | ⟨_, h⟩
    · cases hu
    · simp [adj_set_global] at h
    · simp [head_is_global] at h
  | cons t rest ih =>
    intro rew allv vars c lws hwv hby
    have hwr := well_valued_tail hwv
    by_cases g1 : (t.kind == Kind.IntConst
        && int_const_extracted rew.getLast? t) = true
    · have hkInt : t.kind = Kind.IntConst :=
        beq_iff_eq.mp ((Bool.and_eq_true _ _).mp g1).1
      obtain ⟨v, hv⟩ := Option.ne_none_iff_exists'.mp
        (hwv t (List.mem_cons_self t rest) (Or.inl hkInt))
      have hnk : t.kind ≠ Kind.Keyword := by rw [hkInt]; intro h; cases h
      have hby' : has_bypass_keyword rest ∨ adj_set_global rest = true ∨
          (lws = true ∧ head_is_global rest = true) :=
        (bypass_hyp_tail_of_not_keyword hnk hby).elim Or.inl
          (fun h => Or.inr (Or.inl h))
      exact Eq.trans (by simp [rewrite_loop, g1, hv])
        (ih (push_var rew "__std__" "int64" (next_var na c) t.span) allv
          (vars ++ [⟨v⟩]) (c + 1) lws hwr hby')
    · by_cases g2 : (t.kind == Kind.FloatConst) = true
      · have hk2 : t.kind = Kind.FloatConst := beq_iff_eq.mp g2
        obtain ⟨v, hv⟩ := Option.ne_none_iff_exists'.mp
          (hwv t (List.mem_cons_self t rest) (Or.inr (Or.inl hk2)))
        have hnk : t.kind ≠ Kind.Keyword := by rw [hk2]; intro h; cases h
        have hby' : has_bypass_keyword rest ∨ adj_set_global rest = true ∨
            (lws = true ∧ head_is_global rest = true) :=
          (bypass_hyp_tail_of_not_keyword hnk hby).elim Or.inl
            (fun h => Or.inr (Or.inl h))
        exact Eq.trans (by simp [rewrite_loop, g1, g2, hv])
          (ih (push_var rew "__std__" "float64" (next_var na c) t.span) allv
            (vars ++ [⟨v⟩]) (c + 1) lws hwr hby')
      · by_cases g3 : (t.kind == Kind.BigIntConst) = true
        · have hk3 : t.kind = Kind.BigIntConst := beq_iff_eq.mp g3
          obtain ⟨v, hv⟩ := Option.ne_none_iff_exists'.mp
            (hwv t (List.mem_cons_self t rest)
              (Or.inr (Or.inr (Or.inl hk3))))
          have hnk : t.kind ≠ Kind.Keyword := by rw [hk3]; intro h; cases h
          have hby' : has_bypass_keyword rest ∨ adj_set_global rest = true ∨
              (lws = true ∧ head_is_global rest = true) :=
            (bypass_hyp_tail_of_not_keyword hnk hby).elim Or.inl
              (fun h => Or.inr (Or.inl h))
          exact Eq.trans (by simp [rewrite_loop, g1, g2, g3, hv])
            (ih (push_var rew "__std__" "bigint" (next_var na c) t.span) allv
              (vars ++ [⟨v⟩]) (c + 1) lws hwr hby')
        · by_cases g4 : (t.kind == Kind.DecimalConst) = true
          · have hk4 : t.kind = Kind.DecimalConst := beq_iff_eq.mp g4
            obtain ⟨v, hv⟩ := Option.ne_none_iff_exists'.mp
              (hwv t (List.mem_cons_self t rest)
                (Or.inr (Or.inr (Or.inr (Or.inl hk4)))))
            have hnk : t.kind ≠ Kind.Keyword := by rw [hk4]; intro h; cases h
            have hby' : has_bypass_keyword rest ∨ adj_set_global rest = true ∨
                (lws = true ∧ head_is_global rest = true) :=
              (bypass_hyp_tail_of_not_keyword hnk hby).elim Or.inl
                (fun h => Or.inr (Or.inl h))
            exact Eq.trans (by simp [rewrite_loop, g1, g2, g3, g4, hv])
              (ih (push_var rew "__std__" "decimal" (next_var na c) t.span)
                allv (vars ++ [⟨v⟩]) (c + 1) lws hwr hby')
          · by_cases g5 : (t.kind == Kind.Str) = true
            · have hk5 : t.kind = Kind.Str := beq_iff_eq.mp g5
              obtain ⟨v, hv⟩ := Option.ne_none_iff_exists'.mp
                (hwv t (List.mem_cons_self t rest)
                  (Or.inr (Or.inr (Or.inr (Or.inr hk5)))))
              have hnk : t.kind ≠ Kind.Keyword := by
                rw [hk5]; intro h; cases h
              have hby' : has_bypass_keyword rest ∨
                  adj_set_global rest = true ∨
                  (lws = true ∧ head_is_global rest = true) :=
                (bypass_hyp_tail_of_not_keyword hnk hby).elim
                  Or.inl (fun h => Or.inr (Or.inl h))
              exact Eq.trans (by simp [rewrite_loop, g1, g2, g3, g4, g5, hv])
                (ih (push_var rew "__std__" "str" (next_var na c) t.span)
                  allv (vars ++ [⟨v⟩]) (c + 1) lws hwr hby')
            · by_cases g6 : is_bypass_keyword lws t = true
              · simp [rewrite_loop, g1, g2, g3, g4, g5, g6]
              · by_cases g7 : (t.kind == Kind.Semicolon) = true
                · have hk7 : t.kind = Kind.Semicolon := beq_iff_eq.mp g7
                  have hnk : t.kind ≠ Kind.Keyword := by
                    rw [hk7]; intro h; cases h
                  have hby' : has_bypass_keyword rest ∨
                      adj_set_global rest = true ∨
                      (false = true ∧ head_is_global rest = true) :=
                    (bypass_hyp_tail_of_not_keyword hnk hby).elim
                      Or.inl (fun h => Or.inr (Or.inl h))
                  by_cases hlen : rest.length > 0
                  · exact Eq.trans
                      (by simp [rewrite_loop, g1, g2, g3, g4, g5, g6, g7,
                        hlen])
                      (ih (rew ++ [t]) (allv ++ [vars]) [] c false hwr hby')
                  · exact Eq.trans
                      (by simp [rewrite_loop, g1, g2, g3, g4, g5, g6, g7,
                        hlen])
                      (ih (rew ++ [t]) allv vars c false hwr hby')
                · by_cases g8 : (t.kind == Kind.Keyword
                      && to_upper t.text == "SET") = true
                  · have hkw : t.kind = Kind.Keyword :=
                      beq_iff_eq.mp ((Bool.and_eq_true _ _).mp g8).1
                    have hset : to_upper t.text = "SET" :=
                      beq_iff_eq.mp ((Bool.and_eq_true _ _).mp g8).2
                    have hby' : has_bypass_keyword rest ∨
                        adj_set_global rest = true ∨
                        (true = true ∧ head_is_global rest = true) := by
                      rcases hby with hB | hA | ⟨hl, hg⟩
                      · refine Or.inl (has_bypass_keyword_tail hB ?_)
                        rintro ⟨hk', hc'⟩
                        exact g6 (by
                          unfold is_bypass_keyword
                          rw [hk', hc']
                          simp)
                      · rcases adj_set_global_cases hA with
                          ⟨u, rest', hrest, hk1, hs1, hk2, hg2⟩ | h
                        · subst hrest
                          exact Or.inr (Or.inr ⟨rfl, by
                            simp [head_is_global, hk2, hg2]⟩)
                        · exact Or.inr (Or.inl h)
                      · simp only [head_is_global, Bool.and_eq_true,
                          beq_iff_eq] at hg
                        exact absurd (hset.symm.trans hg.2) (by decide)
                    exact Eq.trans
                      (by simp [rewrite_loop, g1, g2, g3, g4, g5, g6, g7,
                        g8])
                      (ih (rew ++ [t]) allv vars c true hwr hby')
                  · have hby' : has_bypass_keyword rest ∨
                        adj_set_global rest = true ∨
                        (false = true ∧ head_is_global rest = true) := by
                      rcases hby with hB | hA | ⟨hl, hg⟩
                      · refine Or.inl (has_bypass_keyword_tail hB ?_)
                        rintro ⟨hk', hc'⟩
                        exact g6 (by
                          unfold is_bypass_keyword
                          rw [hk', hc']
                          simp)
                      · rcases adj_set_global_cases hA with
                          ⟨u, rest', hrest, hk1, hs1, _, _⟩ | h
                        · exact absurd (by simp [hk1, hs1] :
                            (t.kind == Kind.Keyword
                              && to_upper t.text == "SET") = true) g8
                        · exact Or.inr (Or.inl h)
                      · simp only [head_is_global, Bool.and_eq_true,
                          beq_iff_eq] at hg
                        exact absurd (show is_bypass_keyword lws t = true by
                          unfold is_bypass_keyword
                          rw [hg.1, hg.2, hl]
                          decide) g6
                    exact Eq.trans
                      (by simp [rewrite_loop, g1, g2, g3, g4, g5, g6, g7,
                        g8])
                      (ih (rew ++ [t]) allv vars c false hwr hby')

/-- The rewrite loop never panics on well-valued tokens: the `unwrap` of a
literal value is always backed by the token-source invariant. -/
lemma rewrite_loop_no_panic (na : Bool) :
    ∀ (toks rew : List Token) (allv : List (List Variable))
      (vars : List Variable) (c : Nat) (lws : Bool),
      well_valued toks →
      rewrite_loop na toks rew allv vars c lws ≠ .panic := by
  intro toks
  induction toks with
  | nil =>
    intro rew allv vars c lws _ h
    simp [rewrite_loop] at h
  | cons t rest ih =>
    intro rew allv vars c lws hwv
    have hwr := well_valued_tail hwv
    by_cases g1 : (t.kind == Kind.IntConst
        && int_const_extracted rew.getLast? t) = true
    · have hkInt : t.kind = Kind.IntConst :=
        beq_iff_eq.mp ((Bool.and_eq_true _ _).mp g1).1
      obtain ⟨v, hv⟩ := Option.ne_none_iff_exists'.mp
        (hwv t (List.mem_cons_self t rest) (Or.inl hkInt))
      rw [show rewrite_loop na (t :: rest) rew allv vars c lws =
          rewrite_loop na rest
            (push_var rew "__std__" "int64" (next_var na c) t.span)
            allv (vars ++ [⟨v⟩]) (c + 1) lws from by
        simp [rewrite_loop, g1, hv]]
      exact ih _ _ _ _ _ hwr
    · by_cases g2 : (t.kind == Kind.FloatConst) = true
      · obtain ⟨v, hv⟩ := Option.ne_none_iff_exists'.mp
          (hwv t (List.mem_cons_self t rest)
            (Or.inr (Or.inl (beq_iff_eq.mp g2))))
        rw [show rewrite_loop na (t :: rest) rew allv vars c lws =
            rewrite_loop na rest
              (push_var rew "__std__" "float64" (next_var na c) t.span)
              allv (vars ++ [⟨v⟩]) (c + 1) lws from by
          simp [rewrite_loop, g1, g2, hv]]
        exact ih _ _ _ _ _ hwr
      · by_cases g3 : (t.kind == Kind.BigIntConst) = true
        · obtain ⟨v, hv⟩ := Option.ne_none_iff_exists'.mp
            (hwv t (List.mem_cons_self t rest)
              (Or.inr (Or.inr (Or.inl (beq_iff_eq.mp g3)))))
          rw [show rewrite_loop na (t :: rest) rew allv vars c lws =
              rewrite_loop na rest
                (push_var rew "__std__" "bigint" (next_var na c) t.span)
                allv (vars ++ [⟨v⟩]) (c + 1) lws from by
            simp [rewrite_loop, g1, g2, g3, hv]]
          exact ih _ _ _ _ _ hwr
        · by_cases g4 : (t.kind == Kind.DecimalConst) = true
          · obtain ⟨v, hv⟩ := Option.ne_none_iff_exists'.mp
              (hwv t (List.mem_cons_self t rest)
                (Or.inr (Or.inr (Or.inr (Or.inl (beq_iff_eq.mp g4))))))
            rw [show rewrite_loop na (t :: rest) rew allv vars c lws =
                rewrite_loop na rest
                  (push_var rew "__std__" "decimal" (next_var na c) t.span)
                  allv (vars ++ [⟨v⟩]) (c + 1) lws from by
              simp [rewrite_loop, g1, g2, g3, g4, hv]]
            exact ih _ _ _ _ _ hwr
          · by_cases g5 : (t.kind == Kind.Str) = true
            · obtain ⟨v, hv⟩ := Option.ne_none_iff_exists'.mp
                (hwv t (List.mem_cons_self t rest)
                  (Or.inr (Or.inr (Or.inr (Or.inr (beq_iff_eq.mp g5))))))
              rw [show rewrite_loop na (t :: rest) rew allv vars c lws =
                  rewrite_loop na rest
                    (push_var rew "__std__" "str" (next_var na c) t.span)
                    allv (vars ++ [⟨v⟩]) (c + 1) lws from by
                simp [rewrite_loop, g1, g2, g3, g4, g5, hv]]
              exact ih _ _ _ _ _ hwr
            · by_cases g6 : is_bypass_keyword lws t = true
              · intro h
                rw [show rewrite_loop na (t :: rest) rew allv vars c lws =
                    .bypass from by
                  simp [rewrite_loop, g1, g2, g3, g4, g5, g6]] at h
                cases h
              · by_cases g7 : (t.kind == Kind.Semicolon) = true
                · by_cases hlen : rest.length > 0
                  · rw [show rewrite_loop na (t :: rest) rew allv vars c
                        lws = rewrite_loop na rest (rew ++ [t])
                        (allv ++ [vars]) [] c false from by
                      simp [rewrite_loop, g1, g2, g3, g4, g5, g6, g7, hlen]]
                    exact ih _ _ _ _ _ hwr
                  · rw [show rewrite_loop na (t :: rest) rew allv vars c
                        lws = rewrite_loop na rest (rew ++ [t]) allv vars c
                        false from by
                      simp [rewrite_loop, g1, g2, g3, g4, g5, g6, g7, hlen]]
                    exact ih _ _ _ _ _ hwr
                · by_cases g8 : (t.kind == Kind.Keyword
                      && to_upper t.text == "SET") = true
                  · rw [show rewrite_loop na (t :: rest) rew allv vars c
                        lws = rewrite_loop na rest (rew ++ [t]) allv vars c
                        true from by
                      simp [rewrite_loop, g1, g2, g3, g4, g5, g6, g7, g8]]
                    exact ih _ _ _ _ _ hwr
                  · rw [show rewrite_loop na (t :: rest) rew allv vars c
                        lws = rewrite_loop na rest (rew ++ [t]) allv vars c
                        false from by
                      simp [rewrite_loop, g1, g2, g3, g4, g5, g6, g7, g8]]
                    exact ih _ _ _ _ _ hwr

/-- On well-valued tokens `normalize_tokens` always produces an entry. -/
lemma normalize_tokens_ne_none (digest : String → List Nat)
    (toks : List Token) (p : Pos) (hwv : well_valued toks) :
    normalize_tokens digest toks p ≠ none := by
  unfold normalize_tokens
  cases hs : scan_vars toks with
  | none => simp
  | some pair =>
    obtain ⟨na, vi⟩ := pair
    cases hl : rewrite_loop na toks [] [] [] vi false with
    | panic =>
      exact absurd hl (rewrite_loop_no_panic na toks [] [] [] vi false hwv)
    | bypass => simp [hl]
    | ok rew allv ctr => simp [hl]

/-- C4: any well-valued token sequence containing an administrative/DDL
bypass keyword (or an adjacent `SET GLOBAL` pair) is passed through: the
original tokens are kept and serialized verbatim, the hash is the digest of
that text, variables are empty, `named_args` is false and `first_arg` is
absent. -/
theorem bypass_keywords_pass_through (digest : String → List Nat)
    (tokens : List Token) (p : Pos) (hwv : well_valued tokens)
    (hby : has_bypass_keyword tokens ∨ adj_set_global tokens = true) :
    normalize_tokens digest tokens p
      = some (pass_through_entry digest tokens p)
    ∧ (pass_through_entry digest tokens p).processed_source
        = serialize_tokens tokens
    ∧ (pass_through_entry digest tokens p).hash
        = digest (serialize_tokens tokens)
    ∧ (pass_through_entry digest tokens p).«variables» = []
    ∧ (pass_through_entry digest tokens p).named_args = false
    ∧ (pass_through_entry digest tokens p).first_arg = none
    ∧ (pass_through_entry digest tokens p).tokens = tokens := by
  refine ⟨?_, rfl, rfl, rfl, rfl, rfl, rfl⟩
  unfold normalize_tokens
  cases hs : scan_vars tokens with
  | none => rfl
  | some pair =>
    obtain ⟨na, vi⟩ := pair
    have hl := rewrite_loop_bypass na tokens [] [] [] vi false hwv
      (hby.elim Or.inl (fun h => Or.inr (Or.inl h)))
    simp [hl]

/-- Witness for C4 on the tokens of `CREATE Foo`. -/
theorem bypass_keywords_pass_through_witness :
    normalize_tokens digest0 create_tokens (mkpos 10)
      = some (pass_through_entry digest0 create_tokens (mkpos 10)) :=
  (bypass_keywords_pass_through digest0 create_tokens (mkpos 10)
    (by unfold well_valued; decide)
    (Or.inl ⟨kw_token "CREATE" 0 6, by decide, by decide, by decide⟩)).1

/-- C7: `normalize` fails exactly on tokenizer failure, via `Error.Tokenizer`
with the failure's message and position; on successful well-valued
tokenization it returns Ok; a failed argument scan still returns Ok with the
original tokens passed through; and every error it ever returns is a
`Tokenizer` error (the `Assertion` variant is never produced). -/
theorem error_semantics
    (tokenize : String → Except (String × Pos) (List Token × Pos))
    (digest : String → List Nat) (text : String) :
    (∀ message pos, tokenize text = .error (message, pos) →
        normalize tokenize digest text
          = some (.error (.Tokenizer message pos)))
    ∧ (∀ toks p, tokenize text = .ok (toks, p) → well_valued toks →
        ∃ e, normalize tokenize digest text = some (.ok e))
    ∧ (∀ toks p, tokenize text = .ok (toks, p) → scan_vars toks = none →
        normalize tokenize digest text
          = some (.ok (pass_through_entry digest toks p)))
    ∧ (∀ err, normalize tokenize digest text = some (.error err) →
        ∃ message pos, tokenize text = .error (message, pos)
          ∧ err = .Tokenizer message pos) := by
  refine ⟨?_, ?_, ?_, ?_⟩
  · intro message pos h
    unfold normalize
    rw [h]
  · intro toks p h hwv
    obtain ⟨e, he⟩ := Option.ne_none_iff_exists'.mp
      (normalize_tokens_ne_none digest toks p hwv)
    refine ⟨e, ?_⟩
    unfold normalize
    simp [h, he]
  · intro toks p h hscan
    unfold normalize
    simp only [h]
    unfold normalize_tokens
    simp [hscan]
  · intro err h
    unfold normalize at h
    cases ht : tokenize text with
    | error pr =>
      obtain ⟨m, q⟩ := pr
      rw [ht] at h
      simp only [Option.some.injEq, Except.error.injEq] at h
      exact ⟨m, q, rfl, h.symm⟩
    | ok pr =>
      obtain ⟨toks, q⟩ := pr
      rw [ht] at h
      cases hnt : normalize_tokens digest toks q with
      | none => simp [hnt] at h
      | some e => simp [hnt] at h

/-- Witness for C7 on a failing and a succeeding tokenizer. -/
theorem error_semantics_witness :
    normalize tokenize_fail digest0 "@"
      = some (.error (.Tokenizer "unexpected character" pos0)) :=
  (error_semantics tokenize_fail digest0 "@").1 "unexpected character" pos0
    rfl

/-- The group `push_var` emits holds exactly one `Argument` token. -/
lemma count_args_push_var (rew : List Token) (module typ var : String)
    (span : Span) :
    count_args (push_var rew module typ var span) = count_args rew + 1 := by
  simp [count_args, push_var, List.countP_append, List.countP_cons]

/-- Counting invariant of the rewrite loop: the counter only grows, each
extraction contributes exactly one variable and one `Argument` token. -/
lemma rewrite_loop_ok_counts (na : Bool) :
    ∀ (toks rew : List Token) (allv : List (List Variable))
      (vars : List Variable) (c : Nat) (lws : Bool)
      (rew' : List Token) (allv' : List (List Variable)) (c' : Nat),
      rewrite_loop na toks rew allv vars c lws = .ok rew' allv' c' →
      c ≤ c'
      ∧ allv'.flatten.length = allv.flatten.length + vars.length + (c' - c)
      ∧ count_args rew' = count_args rew + count_args toks + (c' - c) := by
  intro toks
  induction toks with
  | nil =>
    intro rew allv vars c lws rew' allv' c' h
    simp only [rewrite_loop, RewriteResult.ok.injEq] at h
    obtain ⟨h1, h2, h3⟩ := h
    subst h1; subst h2; subst h3
    simp [count_args]
  | cons t rest ih =>
    intro rew allv vars c lws rew' allv' c' h
    by_cases g1 : (t.kind == Kind.IntConst
        && int_const_extracted rew.getLast? t) = true
    · have hkInt : t.kind = Kind.IntConst :=
        beq_iff_eq.mp ((Bool.and_eq_true _ _).mp g1).1
      cases hv : t.value with
      | none => exact absurd h (by simp [rewrite_loop, g1, hv])
      | some v =>
        rw [show rewrite_loop na (t :: rest) rew allv vars c lws =
            rewrite_loop na rest
              (push_var rew "__std__" "int64" (next_var na c) t.span)
              allv (vars ++ [⟨v⟩]) (c + 1) lws from by
          simp [rewrite_loop, g1, hv]] at h
        obtain ⟨h1, h2, h3⟩ := ih _ _ _ _ _ _ _ _ h
        rw [count_args_push_var] at h3
        have hct : count_args (t :: rest) = count_args rest := by
          simp [count_args, List.countP_cons, hkInt]
        refine ⟨by omega, by simp at h2 ⊢; omega, by rw [hct]; omega⟩
    · by_cases g2 : (t.kind == Kind.FloatConst) = true
      · have hk2 : t.kind = Kind.FloatConst := beq_iff_eq.mp g2
        cases hv : t.value with
        | none => exact absurd h (by simp [rewrite_loop, g1, g2, hv])
        | some v =>
          rw [show rewrite_loop na (t :: rest) rew allv vars c lws =
              rewrite_loop na rest
                (push_var rew "__std__" "float64" (next_var na c) t.span)
                allv (vars ++ [⟨v⟩]) (c + 1) lws from by
            simp [rewrite_loop, g1, g2, hv]] at h
          obtain ⟨h1, h2, h3⟩ := ih _ _ _ _ _ _ _ _ h
          rw [count_args_push_var] at h3
          have hct : count_args (t :: rest) = count_args rest := by
            simp [count_args, List.countP_cons, hk2]
          refine ⟨by omega, by simp at h2 ⊢; omega, by rw [hct]; omega⟩
      · by_cases g3 : (t.kind == Kind.BigIntConst) = true
        · have hk3 : t.kind = Kind.BigIntConst := beq_iff_eq.mp g3
          cases hv : t.value with
          | none => exact absurd h (by simp [rewrite_loop, g1, g2, g3, hv])
          | some v =>
            rw [show rewrite_loop na (t :: rest) rew allv vars c lws =
                rewrite_loop na rest
                  (push_var rew "__std__" "bigint" (next_var na c) t.span)
                  allv (vars ++ [⟨v⟩]) (c + 1) lws from by
              simp [rewrite_loop, g1, g2, g3, hv]] at h
            obtain ⟨h1, h2, h3⟩ := ih _ _ _ _ _ _ _ _ h
            rw [count_args_push_var] at h3
            have hct : count_args (t :: rest) = count_args rest := by
              simp [count_args, List.countP_cons, hk3]
            refine ⟨by omega, by simp at h2 ⊢; omega, by rw [hct]; omega⟩
        · by_cases g4 : (t.kind == Kind.DecimalConst) = true
          · have hk4 : t.kind = Kind.DecimalConst := beq_iff_eq.mp g4
            cases hv : t.value with
            | none => exact absurd h (by simp [rewrite_loop, g1, g2, g3, g4, hv])
            | some v =>
              rw [show rewrite_loop na (t :: rest) rew allv vars c lws =
                  rewrite_loop na rest
                    (push_var rew "__std__" "decimal" (next_var na c)
                      t.span)
                    allv (vars ++ [⟨v⟩]) (c + 1) lws from by
                simp [rewrite_loop, g1, g2, g3, g4, hv]] at h
              obtain ⟨h1, h2, h3⟩ := ih _ _ _ _ _ _ _ _ h
              rw [count_args_push_var] at h3
              have hct : count_args (t :: rest) = count_args rest := by
                simp [count_args, List.countP_cons, hk4]
              refine ⟨by omega, by simp at h2 ⊢; omega, by rw [hct]; omega⟩
          · by_cases g5 : (t.kind == Kind.Str) = true
            · have hk5 : t.kind = Kind.Str := beq_iff_eq.mp g5
              cases hv : t.value with
              | none => rw [show rewrite_loop na (t :: rest) rew allv vars
                    c lws = .panic from by
                  simp [rewrite_loop, g1, g2, g3, g4, g5, hv]] at h
                        cases h
              | some v =>
                rw [show rewrite_loop na (t :: rest) rew allv vars c lws =
                    rewrite_loop na rest
                      (push_var rew "__std__" "str" (next_var na c) t.span)
                      allv (vars ++ [⟨v⟩]) (c + 1) lws from by
                  simp [rewrite_loop, g1, g2, g3, g4, g5, hv]] at h
                obtain ⟨h1, h2, h3⟩ := ih _ _ _ _ _ _ _ _ h
                rw [count_args_push_var] at h3
                have hct : count_args (t :: rest) = count_args rest := by
                  simp [count_args, List.countP_cons, hk5]
                refine ⟨by omega, by simp at h2 ⊢; omega,
                  by rw [hct]; omega⟩
            · by_cases g6 : is_bypass_keyword lws t = true
              · rw [show rewrite_loop na (t :: rest) rew allv vars c lws =
                    .bypass from by
                  simp [rewrite_loop, g1, g2, g3, g4, g5, g6]] at h
                cases h
              · have hstep : ∀ allv₀ vars₀ lws₀,
                    rewrite_loop na rest (rew ++ [t]) allv₀ vars₀ c lws₀ =
                      .ok rew' allv' c' →
                    c ≤ c'
                    ∧ allv'.flatten.length
                        = allv₀.flatten.length + vars₀.length + (c' - c)
                    ∧ count_args rew'
                        = count_args rew + count_args (t :: rest)
                          + (c' - c) := by
                  intro allv₀ vars₀ lws₀ h₀
                  obtain ⟨h1, h2, h3⟩ := ih _ _ _ _ _ _ _ _ h₀
                  refine ⟨h1, h2, ?_⟩
                  rw [h3, count_args, count_args, count_args, count_args,
                    List.countP_append, List.countP_cons]
                  simp [List.countP_cons]
                  omega
                by_cases g7 : (t.kind == Kind.Semicolon) = true
                · by_cases hlen : rest.length > 0
                  · rw [show rewrite_loop na (t :: rest) rew allv vars c
                        lws = rewrite_loop na rest (rew ++ [t])
                        (allv ++ [vars]) [] c false from by
                      simp [rewrite_loop, g1, g2, g3, g4, g5, g6, g7,
                        hlen]] at h
                    obtain ⟨h1, h2, h3⟩ := hstep _ _ _ h
                    refine ⟨h1, ?_, h3⟩
                    simp at h2 ⊢
                    omega
                  · rw [show rewrite_loop na (t :: rest) rew allv vars c
                        lws = rewrite_loop na rest (rew ++ [t]) allv vars c
                        false from by
                      simp [rewrite_loop, g1, g2, g3, g4, g5, g6, g7,
                        hlen]] at h
                    exact hstep _ _ _ h
                · by_cases g8 : (t.kind == Kind.Keyword
                      && to_upper t.text == "SET") = true
                  · rw [show rewrite_loop na (t :: rest) rew allv vars c
                        lws = rewrite_loop na rest (rew ++ [t]) allv vars c
                        true from by
                      simp [rewrite_loop, g1, g2, g3, g4, g5, g6, g7,
                        g8]] at h
                    exact hstep _ _ _ h
                  · rw [show rewrite_loop na (t :: rest) rew allv vars c
                        lws = rewrite_loop na rest (rew ++ [t]) allv vars c
                        false from by
                      simp [rewrite_loop, g1, g2, g3, g4, g5, g6, g7,
                        g8]] at h
                    exact hstep _ _ _ h

/-- C10: in a completed (non-bypassed) rewrite, the total number of extracted
variables equals the advance of the parameter counter, the rewritten output
holds exactly that many new `Argument` tokens beyond the input's own ones,
and each extraction contributes one eight-token placeholder group whose
tokens all carry the originating literal's span. -/
theorem extraction_counting (na : Bool) (toks : List Token) (c0 : Nat)
    (rew' : List Token) (allv' : List (List Variable)) (c' : Nat)
    (digest : String → List Nat) (p : Pos)
    (hloop : rewrite_loop na toks [] [] [] c0 false = .ok rew' allv' c') :
    allv'.flatten.length = c' - c0
    ∧ c0 ≤ c'
    ∧ count_args rew' = count_args toks + (c' - c0)
    ∧ (∀ module typ var span,
        (push_var [] module typ var span).length = 8
        ∧ count_args (push_var [] module typ var span) = 1
        ∧ ∀ tk ∈ push_var [] module typ var span, tk.span = span)
    ∧ (scan_vars toks = some (na, c0) →
        (normalize_tokens digest toks p).map
          (fun e => (e.«variables», e.tokens)) = some (allv', rew')) := by
  obtain ⟨h1, h2, h3⟩ :=
    rewrite_loop_ok_counts na toks [] [] [] c0 false rew' allv' c' hloop
  refine ⟨by simpa using h2, h1, by simpa [count_args] using h3, ?_, ?_⟩
  · intro module typ var span
    refine ⟨rfl, ?_, ?_⟩
    · simp [count_args, push_var, List.countP_cons]
    · intro tk htk
      simp [push_var] at htk
      rcases htk with h|h|h|h|h|h|h|h <;> subst h <;> rfl
  · intro hscan
    unfold normalize_tokens
    simp [hscan, hloop]

/-- Witness for C10 on the tokens of `SELECT 1+1`. -/
theorem extraction_counting_witness :
    ([[(⟨Value.Int 1⟩ : Variable), ⟨Value.Int 1⟩]]).flatten.length = 2 - 0 :=
  (extraction_counting false sel11_tokens 0 sel11_rewritten
    [[⟨Value.Int 1⟩, ⟨Value.Int 1⟩]] 2 digest0 sel11_end (by rfl)).1

/-- The split `stmt_split` never produces an empty statement list. -/
lemma stmt_split_ne_nil (toks : List Token) : stmt_split toks ≠ [] := by
  cases toks with
  | nil => simp [stmt_split]
  | cons t rest =>
    rw [stmt_split]
    split
    · simp
    · cases hss : stmt_split rest with
      | nil => simp
      | cons s ss => simp

/-- The last token `push_var` emits is the group's closing parenthesis. -/
lemma push_var_getLast (rew : List Token) (module typ var : String)
    (span : Span) :
    (push_var rew module typ var span).getLast?
      = some (close_paren_token span) := by
  rw [push_var, List.getLast?_append_of_ne_nil _ (by simp)]
  rfl

/-- The reference `seg_values` depends on the previous token only through
the dot and `LIMIT` lookback tests. -/
lemma seg_values_congr (a b : Option Token) (toks : List Token)
    (hdot : last_is_dot a = last_is_dot b)
    (hlim : last_is_limit a = last_is_limit b) :
    seg_values a toks = seg_values b toks := by
  cases toks with
  | nil => rfl
  | cons t rest =>
    have hce : int_const_extracted a t = int_const_extracted b t := by
      simp [int_const_extracted, hdot, hlim]
    rw [seg_values, seg_values, hce]

/-- The number of statements is the number of non-final semicolons plus
one. -/
lemma stmt_split_length (toks : List Token) :
    (stmt_split toks).length = count_nonfinal_semis toks + 1 := by
  induction toks with
  | nil => simp [stmt_split, count_nonfinal_semis]
  | cons t rest ih =>
    rw [stmt_split]
    by_cases hc : t.kind = Kind.Semicolon ∧ rest ≠ []
    · rw [if_pos hc]
      obtain ⟨u, rest', hr⟩ := List.exists_cons_of_ne_nil hc.2
      subst hr
      simp only [List.length_cons, ih]
      simp [count_nonfinal_semis, hc.1]
      omega
    · rw [if_neg hc]
      cases hss : stmt_split rest with
      | nil => exact absurd hss (stmt_split_ne_nil rest)
      | cons s ss =>
        rcases not_and_or.mp hc with hns | hne
        · cases rest with
          | nil =>
            have hss2 : ([] : List Token) = s ∧ ([] : List (List Token)) = ss := by
              have h2 : ([[]] : List (List Token)) = s :: ss := hss
              exact ⟨(List.cons.inj h2).1, (List.cons.inj h2).2⟩
            obtain ⟨hs1, hs2⟩ := hss2
            subst hs2
            simp [count_nonfinal_semis]
          | cons u rest' =>
            have hlen : (s :: ss).length = count_nonfinal_semis (u :: rest') + 1 := by
              rw [← hss, ih]
            simp only [List.length_cons] at hlen ⊢
            simp [count_nonfinal_semis, hns]
            omega
        · have hre : rest = [] := not_ne_iff.mp hne
          subst hre
          have hss2 : ([] : List Token) = s ∧ ([] : List (List Token)) = ss := by
            have h2 : ([[]] : List (List Token)) = s :: ss := hss
            exact ⟨(List.cons.inj h2).1, (List.cons.inj h2).2⟩
          obtain ⟨hs1, hs2⟩ := hss2
          subst hs2
          simp [count_nonfinal_semis]

/-- The group `push_var` emits holds no semicolons. -/
lemma push_var_filter_semi (rew : List Token) (module typ var : String)
    (span : Span) :
    (push_var rew module typ var span).filter
        (fun t => t.kind == Kind.Semicolon)
      = rew.filter (fun t => t.kind == Kind.Semicolon) := by
  simp [push_var, List.filter_append]

/-- The rewrite loop retains exactly the semicolon tokens of its input. -/
lemma rewrite_loop_ok_semis (na : Bool) :
    ∀ (toks rew : List Token) (allv : List (List Variable))
      (vars : List Variable) (c : Nat) (lws : Bool)
      (rew' : List Token) (allv' : List (List Variable)) (c' : Nat),
      rewrite_loop na toks rew allv vars c lws = .ok rew' allv' c' →
      rew'.filter (fun t => t.kind == Kind.Semicolon)
        = rew.filter (fun t => t.kind == Kind.Semicolon)
          ++ toks.filter (fun t => t.kind == Kind.Semicolon) := by
  intro toks
  induction toks with
  | nil =>
    intro rew allv vars c lws rew' allv' c' h
    simp only [rewrite_loop, RewriteResult.ok.injEq] at h
    obtain ⟨h1, h2, h3⟩ := h
    subst h1
    simp
  | cons t rest ih =>
    intro rew allv vars c lws rew' allv' c' h
    by_cases g1 : (t.kind == Kind.IntConst
        && int_const_extracted rew.getLast? t) = true
    · have hkInt : t.kind = Kind.IntConst :=
        beq_iff_eq.mp ((Bool.and_eq_true _ _).mp g1).1
      cases hv : t.value with
      | none => exact absurd h (by simp [rewrite_loop, g1, hv])
      | some v =>
        rw [show rewrite_loop na (t :: rest) rew allv vars c lws =
            rewrite_loop na rest
              (push_var rew "__std__" "int64" (next_var na c) t.span)
              allv (vars ++ [⟨v⟩]) (c + 1) lws from by
          simp [rewrite_loop, g1, hv]] at h
        rw [ih _ _ _ _ _ _ _ _ h, push_var_filter_semi]
        simp [List.filter_cons, hkInt]
    · by_cases g2 : (t.kind == Kind.FloatConst) = true
      · have hk2 : t.kind = Kind.FloatConst := beq_iff_eq.mp g2
        cases hv : t.value with
        | none => exact absurd h (by simp [rewrite_loop, g1, g2, hv])
        | some v =>
          rw [show rewrite_loop na (t :: rest) rew allv vars c lws =
              rewrite_loop na rest
                (push_var rew "__std__" "float64" (next_var na c) t.span)
                allv (vars ++ [⟨v⟩]) (c + 1) lws from by
            simp [rewrite_loop, g1, g2, hv]] at h
          rw [ih _ _ _ _ _ _ _ _ h, push_var_filter_semi]
          simp [List.filter_cons, hk2]
      · by_cases g3 : (t.kind == Kind.BigIntConst) = true
        · have hk3 : t.kind = Kind.BigIntConst := beq_iff_eq.mp g3
          cases hv : t.value with
          | none => exact absurd h (by simp [rewrite_loop, g1, g2, g3, hv])
          | some v =>
            rw [show rewrite_loop na (t :: rest) rew allv vars c lws =
                rewrite_loop na rest
                  (push_var rew "__std__" "bigint" (next_var na c) t.span)
                  allv (vars ++ [⟨v⟩]) (c + 1) lws from by
              simp [rewrite_loop, g1, g2, g3, hv]] at h
            rw [ih _ _ _ _ _ _ _ _ h, push_var_filter_semi]
            simp [List.filter_cons, hk3]
        · by_cases g4 : (t.kind == Kind.DecimalConst) = true
          · have hk4 : t.kind = Kind.DecimalConst := beq_iff_eq.mp g4
            cases hv : t.value with
            | none =>
              exact absurd h (by simp [rewrite_loop, g1, g2, g3, g4, hv])
            | some v =>
              rw [show rewrite_loop na (t :: rest) rew allv vars c lws =
                  rewrite_loop na rest
                    (push_var rew "__std__" "decimal" (next_var na c)
                      t.span)
                    allv (vars ++ [⟨v⟩]) (c + 1) lws from by
                simp [rewrite_loop, g1, g2, g3, g4, hv]] at h
              rw [ih _ _ _ _ _ _ _ _ h, push_var_filter_semi]
              simp [List.filter_cons, hk4]
          · by_cases g5 : (t.kind == Kind.Str) = true
            · have hk5 : t.kind = Kind.Str := beq_iff_eq.mp g5
              cases hv : t.value with
              | none =>
                exact absurd h
                  (by simp [rewrite_loop, g1, g2, g3, g4, g5, hv])
              | some v =>
                rw [show rewrite_loop na (t :: rest) rew allv vars c lws =
                    rewrite_loop na rest
                      (push_var rew "__std__" "str" (next_var na c) t.span)
                      allv (vars ++ [⟨v⟩]) (c + 1) lws from by
                  simp [rewrite_loop, g1, g2, g3, g4, g5, hv]] at h
                rw [ih _ _ _ _ _ _ _ _ h, push_var_filter_semi]
                simp [List.filter_cons, hk5]
            · by_cases g6 : is_bypass_keyword lws t = true
              · exact absurd h
                  (by simp [rewrite_loop, g1, g2, g3, g4, g5, g6])
              · have hstep : ∀ allv₀ vars₀ lws₀,
                    rewrite_loop na rest (rew ++ [t]) allv₀ vars₀ c lws₀ =
                      .ok rew' allv' c' →
                    rew'.filter (fun u => u.kind == Kind.Semicolon)
                      = rew.filter (fun u => u.kind == Kind.Semicolon)
                        ++ (t :: rest).filter
                            (fun u => u.kind == Kind.Semicolon) := by
                  intro allv₀ vars₀ lws₀ h₀
                  rw [ih _ _ _ _ _ _ _ _ h₀, List.filter_append,
                    List.filter_cons]
                  cases hsem : (t.kind == Kind.Semicolon) <;> simp [hsem]
                by_cases g7 : (t.kind == Kind.Semicolon) = true
                · by_cases hlen : rest.length > 0
                  · rw [show rewrite_loop na (t :: rest) rew allv vars c
                        lws = rewrite_loop na rest (rew ++ [t])
                        (allv ++ [vars]) [] c false from by
                      simp [rewrite_loop, g1, g2, g3, g4, g5, g6, g7,
                        hlen]] at h
                    exact hstep _ _ _ h
                  · rw [show rewrite_loop na (t :: rest) rew allv vars c
                        lws = rewrite_loop na rest (rew ++ [t]) allv vars c
                        false from by
                      simp [rewrite_loop, g1, g2, g3, g4, g5, g6, g7,
                        hlen]] at h
                    exact hstep _ _ _ h
                · by_cases g8 : (t.kind == Kind.Keyword
                      && to_upper t.text == "SET") = true
                  · rw [show rewrite_loop na (t :: rest) rew allv vars c
                        lws = rewrite_loop na rest (rew ++ [t]) allv vars c
                        true from by
                      simp [rewrite_loop, g1, g2, g3, g4, g5, g6, g7,
                        g8]] at h
                    exact hstep _ _ _ h
                  · rw [show rewrite_loop na (t :: rest) rew allv vars c
                        lws = rewrite_loop na rest (rew ++ [t]) allv vars c
                        false from by
                      simp [rewrite_loop, g1, g2, g3, g4, g5, g6, g7,
                        g8]] at h
                    exact hstep _ _ _ h

/-- The rewrite loop distributes extracted values over the statement split:
finishing with `.ok` yields exactly the per-segment `seg_values` lists. -/
lemma rewrite_loop_ok_values (na : Bool) :
    ∀ (toks rew : List Token) (allv : List (List Variable))
      (vars : List Variable) (c : Nat) (lws : Bool)
      (rew' : List Token) (allv' : List (List Variable)) (c' : Nat),
      rewrite_loop na toks rew allv vars c lws = .ok rew' allv' c' →
      allv' = allv ++ seg_values_all rew.getLast? vars toks := by
  intro toks
  induction toks with
  | nil =>
    intro rew allv vars c lws rew' allv' c' h
    simp only [rewrite_loop, RewriteResult.ok.injEq] at h
    obtain ⟨h1, h2, h3⟩ := h
    subst h2
    simp [seg_values_all, stmt_split, seg_values]
  | cons t rest ih =>
    intro rew allv vars c lws rew' allv' c' h
    obtain ⟨s, ss, hss⟩ := List.exists_cons_of_ne_nil (stmt_split_ne_nil rest)
    have hExtract : ∀ typ : String, ∀ v : Value, t.value = some v →
        ((t.kind = Kind.IntConst
            ∧ int_const_extracted rew.getLast? t = true)
          ∨ t.kind = Kind.FloatConst ∨ t.kind = Kind.BigIntConst
          ∨ t.kind = Kind.DecimalConst ∨ t.kind = Kind.Str) →
        rewrite_loop na rest
            (push_var rew "__std__" typ (next_var na c) t.span)
            allv (vars ++ [⟨v⟩]) (c + 1) lws = .ok rew' allv' c' →
        allv' = allv ++ seg_values_all rew.getLast? vars (t :: rest) := by
      intro typ v hv hkind h₀
      rw [ih _ _ _ _ _ _ _ _ h₀, push_var_getLast]
      congr 1
      have hnsemi : ¬(t.kind = Kind.Semicolon ∧ rest ≠ []) := by
        rintro ⟨hsem, _⟩
        rcases hkind with ⟨h1, _⟩ | h1 | h1 | h1 | h1 <;>
          exact absurd (h1.symm.trans hsem) (by decide)
      have hsplit : stmt_split (t :: rest) = (t :: s) :: ss := by
        rw [stmt_split, if_neg hnsemi, hss]
      have hseg : seg_values rew.getLast? (t :: s)
          = ⟨v⟩ :: seg_values (some (close_paren_token t.span)) s := by
        rcases hkind with ⟨h1, h2⟩ | h1 | h1 | h1 | h1
        · rw [seg_values, if_pos ⟨h1, h2⟩, hv]
        · rw [seg_values,
            if_neg (fun hp => absurd (h1.symm.trans hp.1) (by decide)),
            if_pos (Or.inl h1), hv]
        · rw [seg_values,
            if_neg (fun hp => absurd (h1.symm.trans hp.1) (by decide)),
            if_pos (Or.inr (Or.inl h1)), hv]
        · rw [seg_values,
            if_neg (fun hp => absurd (h1.symm.trans hp.1) (by decide)),
            if_pos (Or.inr (Or.inr (Or.inl h1))), hv]
        · rw [seg_values,
            if_neg (fun hp => absurd (h1.symm.trans hp.1) (by decide)),
            if_pos (Or.inr (Or.inr (Or.inr h1))), hv]
      simp only [seg_values_all, hsplit, hss]
      rw [hseg]
      simp
    have hPass : t.kind ≠ Kind.Semicolon →
        ¬(t.kind = Kind.IntConst
          ∧ int_const_extracted rew.getLast? t = true) →
        ¬(t.kind = Kind.FloatConst ∨ t.kind = Kind.BigIntConst
          ∨ t.kind = Kind.DecimalConst ∨ t.kind = Kind.Str) →
        ∀ lws₀ : Bool,
        rewrite_loop na rest (rew ++ [t]) allv vars c lws₀
            = .ok rew' allv' c' →
        allv' = allv ++ seg_values_all rew.getLast? vars (t :: rest) := by
      intro hnsemi hni hnl lws₀ h₀
      rw [ih _ _ _ _ _ _ _ _ h₀, List.getLast?_concat]
      congr 1
      have hsplit : stmt_split (t :: rest) = (t :: s) :: ss := by
        rw [stmt_split, if_neg (by rintro ⟨h1, _⟩; exact hnsemi h1), hss]
      have hseg : seg_values rew.getLast? (t :: s)
          = seg_values (some t) s := by
        rw [seg_values, if_neg hni, if_neg hnl]
      simp only [seg_values_all, hsplit, hss]
      rw [hseg]
    by_cases g1 : (t.kind == Kind.IntConst
        && int_const_extracted rew.getLast? t) = true
    · have hkInt : t.kind = Kind.IntConst :=
        beq_iff_eq.mp ((Bool.and_eq_true _ _).mp g1).1
      have hguard : int_const_extracted rew.getLast? t = true :=
        ((Bool.and_eq_true _ _).mp g1).2
      cases hv : t.value with
      | none => exact absurd h (by simp [rewrite_loop, g1, hv])
      | some v =>
        rw [show rewrite_loop na (t :: rest) rew allv vars c lws =
            rewrite_loop na rest
              (push_var rew "__std__" "int64" (next_var na c) t.span)
              allv (vars ++ [⟨v⟩]) (c + 1) lws from by
          simp [rewrite_loop, g1, hv]] at h
        exact hExtract "int64" v hv (Or.inl ⟨hkInt, hguard⟩) h
    · by_cases g2 : (t.kind == Kind.FloatConst) = true
      · cases hv : t.value with
        | none => exact absurd h (by simp [rewrite_loop, g1, g2, hv])
        | some v =>
          rw [show rewrite_loop na (t :: rest) rew allv vars c lws =
              rewrite_loop na rest
                (push_var rew "__std__" "float64" (next_var na c) t.span)
                allv (vars ++ [⟨v⟩]) (c + 1) lws from by
            simp [rewrite_loop, g1, g2, hv]] at h
          exact hExtract "float64" v hv (Or.inr (Or.inl (beq_iff_eq.mp g2)))
            h
      · by_cases g3 : (t.kind == Kind.BigIntConst) = true
        · cases hv : t.value with
          | none => exact absurd h (by simp [rewrite_loop, g1, g2, g3, hv])
          | some v =>
            rw [show rewrite_loop na (t :: rest) rew allv vars c lws =
                rewrite_loop na rest
                  (push_var rew "__std__" "bigint" (next_var na c) t.span)
                  allv (vars ++ [⟨v⟩]) (c + 1) lws from by
              simp [rewrite_loop, g1, g2, g3, hv]] at h
            exact hExtract "bigint" v hv
              (Or.inr (Or.inr (Or.inl (beq_iff_eq.mp g3)))) h
        · by_cases g4 : (t.kind == Kind.DecimalConst) = true
          · cases hv : t.value with
            | none =>
              exact absurd h (by simp [rewrite_loop, g1, g2, g3, g4, hv])
            | some v =>
              rw [show rewrite_loop na (t :: rest) rew allv vars c lws =
                  rewrite_loop na rest
                    (push_var rew "__std__" "decimal" (next_var na c)
                      t.span)
                    allv (vars ++ [⟨v⟩]) (c + 1) lws from by
                simp [rewrite_loop, g1, g2, g3, g4, hv]] at h
              exact hExtract "decimal" v hv
                (Or.inr (Or.inr (Or.inr (Or.inl (beq_iff_eq.mp g4))))) h
          · by_cases g5 : (t.kind == Kind.Str) = true
            · cases hv : t.value with
              | none =>
                exact absurd h
                  (by simp [rewrite_loop, g1, g2, g3, g4, g5, hv])
              | some v =>
                rw [show rewrite_loop na (t :: rest) rew allv vars c lws =
                    rewrite_loop na rest
                      (push_var rew "__std__" "str" (next_var na c) t.span)
                      allv (vars ++ [⟨v⟩]) (c + 1) lws from by
                  simp [rewrite_loop, g1, g2, g3, g4, g5, hv]] at h
                exact hExtract "str" v hv
                  (Or.inr (Or.inr (Or.inr (Or.inr (beq_iff_eq.mp g5))))) h
            · have hni : ¬(t.kind = Kind.IntConst
                  ∧ int_const_extracted rew.getLast? t = true) := by
                rintro ⟨h1, h2⟩
                exact g1 (by simp [h1, h2])
              have hnl : ¬(t.kind = Kind.FloatConst
                  ∨ t.kind = Kind.BigIntConst ∨ t.kind = Kind.DecimalConst
                  ∨ t.kind = Kind.Str) := by
                rintro (h1 | h1 | h1 | h1)
                · exact g2 (by simp [h1])
                · exact g3 (by simp [h1])
                · exact g4 (by simp [h1])
                · exact g5 (by simp [h1])
              by_cases g6 : is_bypass_keyword lws t = true
              · exact absurd h
                  (by simp [rewrite_loop, g1, g2, g3, g4, g5, g6])
              · by_cases g7 : (t.kind == Kind.Semicolon) = true
                · have hk7 : t.kind = Kind.Semicolon := beq_iff_eq.mp g7
                  by_cases hlen : rest.length > 0
                  · have hrne : rest ≠ [] := by
                      intro hx
                      rw [hx] at hlen
                      simp at hlen
                    rw [show rewrite_loop na (t :: rest) rew allv vars c
                        lws = rewrite_loop na rest (rew ++ [t])
                        (allv ++ [vars]) [] c false from by
                      simp [rewrite_loop, g1, g2, g3, g4, g5, g6, g7,
                        hlen]] at h
                    rw [ih _ _ _ _ _ _ _ _ h, List.getLast?_concat]
                    have hsplit : stmt_split (t :: rest)
                        = [] :: stmt_split rest := by
                      rw [stmt_split, if_pos ⟨hk7, hrne⟩]
                    have hcongr : seg_values (some t) s
                        = seg_values none s :=
                      seg_values_congr (some t) none s
                        (by simp [last_is_dot, hk7])
                        (by simp [last_is_limit, hk7])
                    simp only [seg_values_all, hsplit, hss]
                    rw [hcongr]
                    simp [seg_values]
                  · have hre : rest = [] :=
                      List.eq_nil_of_length_eq_zero (by omega)
                    subst hre
                    rw [show rewrite_loop na [t] rew allv vars c lws =
                        rewrite_loop na [] (rew ++ [t]) allv vars c false
                        from by
                      simp [rewrite_loop, g1, g2, g3, g4, g5, g6, g7]] at h
                    simp only [rewrite_loop, RewriteResult.ok.injEq] at h
                    obtain ⟨h1, h2, h3⟩ := h
                    subst h2
                    have hsplit1 : stmt_split [t] = [[t]] := by
                      rw [stmt_split, if_neg (fun hp => hp.2 rfl)]
                      rfl
                    have hseg1 : seg_values rew.getLast? [t] = [] := by
                      rw [seg_values, if_neg hni, if_neg hnl]
                      rfl
                    simp only [seg_values_all, hsplit1]
                    rw [hseg1]
                    simp
                · by_cases g8 : (t.kind == Kind.Keyword
                      && to_upper t.text == "SET") = true
                  · rw [show rewrite_loop na (t :: rest) rew allv vars c
                        lws = rewrite_loop na rest (rew ++ [t]) allv vars c
                        true from by
                      simp [rewrite_loop, g1, g2, g3, g4, g5, g6, g7,
                        g8]] at h
                    exact hPass (by
                      intro hx
                      exact absurd ((beq_iff_eq.mp
                        ((Bool.and_eq_true _ _).mp g8).1).symm.trans hx)
                        (by decide)) hni hnl true h
                  · rw [show rewrite_loop na (t :: rest) rew allv vars c
                        lws = rewrite_loop na rest (rew ++ [t]) allv vars c
                        false from by
                      simp [rewrite_loop, g1, g2, g3, g4, g5, g6, g7,
                        g8]] at h
                    exact hPass (by
                      intro hx
                      exact g7 (by simp [hx])) hni hnl false h

/-- C6: a non-bypassed run produces one variable list per statement — the
list length is the number of non-final semicolons plus one (a trailing
semicolon adds no empty statement), the semicolon tokens are retained
verbatim in the output, and each statement's list is exactly the values
extracted from that statement's own tokens. -/
theorem statement_splitting (digest : String → List Nat)
    (tokens : List Token) (p : Pos) (na : Bool) (vi : Nat)
    (rew : List Token) (allv : List (List Variable)) (ctr : Nat)
    (hscan : scan_vars tokens = some (na, vi))
    (hloop : rewrite_loop na tokens [] [] [] vi false = .ok rew allv ctr) :
    ((normalize_tokens digest tokens p).map Entry.«variables») = some allv
    ∧ allv.length = count_nonfinal_semis tokens + 1
    ∧ allv = (stmt_split tokens).map (seg_values none)
    ∧ rew.filter (fun t => t.kind == Kind.Semicolon)
        = tokens.filter (fun t => t.kind == Kind.Semicolon) := by
  have hv := rewrite_loop_ok_values na tokens [] [] [] vi false rew allv ctr
    hloop
  have hallv : allv = (stmt_split tokens).map (seg_values none) := by
    rw [hv]
    obtain ⟨s, ss, hss⟩ :=
      List.exists_cons_of_ne_nil (stmt_split_ne_nil tokens)
    simp [seg_values_all, hss]
  refine ⟨?_, ?_, hallv, ?_⟩
  · unfold normalize_tokens
    simp [hscan, hloop]
  · rw [hallv]
    simp [stmt_split_length]
  · have hsem := rewrite_loop_ok_semis na tokens [] [] [] vi false rew allv
      ctr hloop
    simpa using hsem

/-- Witness for C6 on the tokens of `x;y`. -/
theorem statement_splitting_witness :
    ([([] : List Variable), []]).length
      = count_nonfinal_semis ident_semi_tokens + 1 :=
  (statement_splitting digest0 ident_semi_tokens (mkpos 4) false 0
    ident_semi_tokens [[], []] 0 rfl rfl).2.1

end EdgeQLNormalize
